import Mathlib

/-
Verification of the weighted-CFG transformation library (src/leftcorner/cfg.py)
against its specification.  The Python code is shallowly embedded: pure functions
become Lean functions, the semiring is an explicit record of operations, Python
dict-based charts become association lists with the documented default-zero /
delete-on-zero semantics, and the process-global fresh-name counter gen_nt is
threaded explicitly.  Assertions in the Python code are modelled by Option-valued
functions (none models an AssertionError abort).
-/

namespace LeftCorner

/-- Symbols.  base covers the plain string-named symbols of input grammars
(terminals and nonterminals alike: the code distinguishes them only by
membership in the vocabulary V); gen models the names invented by the
process-global counter gen_nt (the Python name is the string prefix@i, which
is distinct from every base name and from every other generated name, so it is
modelled by its counter value); dollar models the default rename function of
push_null_weights (a dollar-prefixed copy of a name); slash and frozen model
the Slash and Frozen classes together with their collision id field. -/
inductive Sym : Type where
  | base : String → Sym
  | gen : Nat → Sym
  | dollar : Sym → Sym
  | slash : Sym → Sym → Nat → Sym
  | frozen : Sym → Nat → Sym
deriving DecidableEq

/-- A weighted production, mirroring class Rule: a weight, a head symbol and an
ordered body. -/
structure Rule (α : Type) where
  w : α
  head : Sym
  body : List Sym
deriving DecidableEq

/-- Semiring interface, modelled from the spec (the module leftcorner/semiring.py
is not part of the sources): zero, one, addition, multiplication, the closure
operator star, and approx_eq a b which models metric(a, b) <= tol, the
convergence test used by the agenda. -/
structure SR (α : Type) where
  zero : α
  one : α
  add : α → α → α
  mul : α → α → α
  star : α → α
  approx_eq : α → α → Bool

/-- The semiring equations assumed by the spec (section 3): commutative
addition with unit zero, associative multiplication with unit one,
distributivity on both sides, and zero as a multiplicative annihilator. -/
structure SRLaws {α : Type} (R : SR α) : Prop where
  add_comm : ∀ a b, R.add a b = R.add b a
  add_assoc : ∀ a b c, R.add (R.add a b) c = R.add a (R.add b c)
  zero_add : ∀ a, R.add R.zero a = a
  mul_assoc : ∀ a b c, R.mul (R.mul a b) c = R.mul a (R.mul b c)
  one_mul : ∀ a, R.mul R.one a = a
  mul_one : ∀ a, R.mul a R.one = a
  zero_mul : ∀ a, R.mul R.zero a = R.zero
  mul_zero : ∀ a, R.mul a R.zero = R.zero
  left_distrib : ∀ a b c, R.mul a (R.add b c) = R.add (R.mul a b) (R.mul a c)
  right_distrib : ∀ a b c, R.mul (R.add a b) c = R.add (R.mul a c) (R.mul b c)

/-- Charts are sparse mappings with default zero, modelled from the spec
(section 4.A): reading an absent key gives zero, writing a value equal to zero
deletes the key, updating an existing key keeps its position, inserting a new
key appends it (Python dicts preserve insertion order). -/
abbrev Chart (κ α : Type) := List (κ × α)

/-- Chart read: default-zero lookup. -/
def cget {κ α : Type} [DecidableEq κ] (z : α) : Chart κ α → κ → α
  | [], _ => z
  | (k', v) :: rest, k => if k' = k then v else cget z rest k

/-- Remove every entry with the given key. -/
def cremove {κ α : Type} [DecidableEq κ] : Chart κ α → κ → Chart κ α
  | [], _ => []
  | (k', v) :: rest, k =>
      if k' = k then cremove rest k else (k', v) :: cremove rest k

/-- Does the chart contain the key. -/
def chas {κ α : Type} [DecidableEq κ] : Chart κ α → κ → Bool
  | [], _ => false
  | (k', _) :: rest, k => if k' = k then true else chas rest k

/-- Replace the value at every entry with the given key, keeping positions. -/
def cupdate {κ α : Type} [DecidableEq κ] : Chart κ α → κ → α → Chart κ α
  | [], _, _ => []
  | (k0, v0) :: rest, k, v =>
      if k0 = k then (k, v) :: cupdate rest k v
      else (k0, v0) :: cupdate rest k v

/-- Chart write, modelled from the spec: writing zero deletes, writing to an
existing key updates it in place, otherwise the entry is appended. -/
def cset {κ α : Type} [DecidableEq κ] [DecidableEq α]
    (z : α) (c : Chart κ α) (k : κ) (v : α) : Chart κ α :=
  if v = z then cremove c k
  else if chas c k then cupdate c k v
  else c ++ [(k, v)]

/-- Chart accumulate: chart[k] += v over the given addition. -/
def cadd {κ α : Type} [DecidableEq κ] [DecidableEq α]
    (z : α) (plus : α → α → α) (c : Chart κ α) (k : κ) (v : α) : Chart κ α :=
  cset z c k (plus (cget z c k) v)

/-- Finite sum of f over a list of indices, in list order. -/
def sumOver {κ α : Type} (R : SR α) (l : List κ) (f : κ → α) : α :=
  match l with
  | [] => R.zero
  | j :: rest => R.add (f j) (sumOver R rest f)

/-- A weighted context-free grammar, mirroring class CFG: start symbol S,
terminal vocabulary V, nonterminal set N (insertion-ordered, as the heads are
registered), and the ordered rule list.  The semiring instance R held by the
Python object is passed to each operation instead. -/
structure CFG (α : Type) where
  S : Sym
  V : List Sym
  N : List Sym
  rules : List (Rule α)
deriving DecidableEq

/-- is_terminal: membership in the vocabulary. -/
def CFG.is_terminal {α : Type} (g : CFG α) (x : Sym) : Bool := x ∈ g.V

/-- Add a symbol to the nonterminal set (Python set add; insertion order). -/
def addN (N : List Sym) (x : Sym) : List Sym := if x ∈ N then N else N ++ [x]

/-- CFG.add: drops the rule when its weight equals zero (returning the grammar
unchanged, before the head is registered in N); otherwise registers the head
in N and appends the rule. -/
def CFG.add {α : Type} [DecidableEq α] (R : SR α) (g : CFG α)
    (w : α) (head : Sym) (body : List Sym) : CFG α :=
  if w = R.zero then g
  else { g with N := addN g.N head, rules := g.rules ++ [⟨w, head, body⟩] }

/-- CFG.spawn: an empty grammar inheriting start symbol and vocabulary;
its nonterminal set starts as the singleton of the start symbol. -/
def CFG.spawn {α : Type} (g : CFG α) : CFG α :=
  { S := g.S, V := g.V, N := [g.S], rules := [] }

/-- spawn with a replacement start symbol. -/
def CFG.spawnS {α : Type} (g : CFG α) (S : Sym) : CFG α :=
  { S := S, V := g.V, N := [S], rules := [] }

/-- spawn with a replacement vocabulary. -/
def CFG.spawnV {α : Type} (g : CFG α) (V : List Sym) : CFG α :=
  { S := g.S, V := V, N := [g.S], rules := [] }

/-- The Boolean semiring, modelled from the spec: or, and, star constantly one,
metric 0 when equal and 1 otherwise (so approx_eq is equality). -/
def boolSR : SR Bool :=
  { zero := false, one := true, add := or, mul := and,
    star := fun _ => true, approx_eq := fun a b => a == b }

/-- The counting semiring on Nat (weights may differ from one); its star is
only defined at zero, where the closure sum is one (star is unused by the
operations verified over this semiring). -/
def natSR : SR Nat :=
  { zero := 0, one := 1, add := (· + ·), mul := (· * ·),
    star := fun n => if n = 0 then 1 else 0, approx_eq := fun a b => a == b }

/-- Derivation trees, mirroring class Derivation: a node carries the rule that
produced it (possibly none, for the synthetic scaffolding rules built by the
helper tree), the head symbol, and the children, which are either derivations
or bare terminal symbols (the term constructor). -/
inductive Deriv (α : Type) : Type where
  | term : Sym → Deriv α
  | node : Option (Rule α) → Sym → List (Deriv α) → Deriv α

/-- The rhs index: the rules with the given head, in rule order. -/
def CFG.rhs {α : Type} (g : CFG α) (X : Sym) : List (Rule α) :=
  g.rules.filter (fun r => decide (r.head = X))

mutual

/-- CFG.derivations: enumerate derivations of symbol X with height at most H.
A terminal is yielded as itself before the height bound is consulted; for a
nonterminal, a nonpositive bound yields nothing, and otherwise each rule for X
is combined with every list of child derivations of height at most H - 1. -/
def CFG.derivations {α : Type} (g : CFG α) (X : Sym) (H : Int) : List (Deriv α) :=
  if g.is_terminal X then [Deriv.term X]
  else if H ≤ 0 then []
  else (g.rhs X).flatMap (fun r =>
    (CFG.derivList g r.body (H - 1)).map (fun ys => Deriv.node (some r) X ys))
termination_by (H.toNat, 0)
decreasing_by
  simp_wf
  apply Prod.Lex.left
  omega

/-- CFG.derivations_list: all ways to derive each symbol of the list in order,
with the same height bound for every element. -/
def CFG.derivList {α : Type} (g : CFG α) (Xs : List Sym) (H : Int) :
    List (List (Deriv α)) :=
  match Xs with
  | [] => [[]]
  | x :: rest =>
      (CFG.derivations g x H).flatMap (fun d =>
        (CFG.derivList g rest H).map (fun ds => d :: ds))
termination_by (H.toNat, Xs.length + 1)
decreasing_by
  · simp_wf
    apply Prod.Lex.right
    omega
  · simp_wf
    apply Prod.Lex.right
    omega

end

/-- CFG.separate_start: if the start symbol appears in any rule body, invent a
fresh start symbol via the global counter, add a unit rule from it to the old
start, and copy every rule; otherwise return the grammar unchanged.  The
counter is threaded explicitly. -/
def CFG.separate_start {α : Type} [DecidableEq α] (R : SR α) (g : CFG α)
    (c : Nat) : CFG α × Nat :=
  if g.rules.any (fun r => decide (g.S ∈ r.body)) then
    let S' := Sym.gen c
    let new0 := CFG.add R (g.spawnS S') R.one S' [g.S]
    (g.rules.foldl (fun h r => CFG.add R h r.w r.head r.body) new0, c + 1)
  else (g, c)

/-- Add a list of rules to a grammar, one CFG.add per rule. -/
def addAll {α : Type} [DecidableEq α] (R : SR α) (h0 : CFG α)
    (rs : List (Rule α)) : CFG α :=
  rs.foldl (fun h r => CFG.add R h r.w r.head r.body) h0

/-- The rules that CFG.add keeps: those with nonzero weight. -/
def keepNZ {α : Type} [DecidableEq α] (R : SR α) (rs : List (Rule α)) :
    List (Rule α) :=
  rs.filter (fun r => !(decide (r.w = R.zero)))

/-- One pivot of CFG.lehmann: rebuild the chart over N x N, reading the
previous chart U, as V[i, k] = U[i, k] + U[i, j] * star(U[j, j]) * U[j, k]. -/
def lehmannStep {κ α : Type} [DecidableEq κ] [DecidableEq α] (R : SR α)
    (N : List κ) (U : Chart (κ × κ) α) (j : κ) : Chart (κ × κ) α :=
  let s := R.star (cget R.zero U (j, j))
  N.foldl (fun ch i =>
    N.foldl (fun ch k =>
      cset R.zero ch (i, k)
        (R.add (cget R.zero U (i, k))
          (R.mul (R.mul (cget R.zero U (i, j)) s) (cget R.zero U (j, k))))) ch) []

/-- The pivot loop of CFG.lehmann over a list of pivots. -/
def lehmannGo {κ α : Type} [DecidableEq κ] [DecidableEq α] (R : SR α)
    (N : List κ) : List κ → Chart (κ × κ) α → Chart (κ × κ) α
  | [], U => U
  | j :: rest, U => lehmannGo R N rest (lehmannStep R N U j)

/-- CFG.lehmann (the 1977 algorithm): pivot once on every node of N, then add
one on the diagonal for the zero-length paths. -/
def lehmann {κ α : Type} [DecidableEq κ] [DecidableEq α] (R : SR α)
    (N : List κ) (W : Chart (κ × κ) α) : Chart (κ × κ) α :=
  N.foldl (fun ch i => cadd R.zero R.add ch (i, i) R.one) (lehmannGo R N N W)

/-- Function-level mirror of one Lehmann pivot (total on all indices). -/
def funStep {κ α : Type} (R : SR α) (F : κ → κ → α) (j : κ) : κ → κ → α :=
  fun i k => R.add (F i k) (R.mul (R.mul (F i j) (R.star (F j j))) (F j k))

/-- Function-level mirror of the Lehmann pivot loop. -/
def funGo {κ α : Type} (R : SR α) : List κ → (κ → κ → α) → (κ → κ → α)
  | [], F => F
  | j :: rest, F => funGo R rest (funStep R F j)

/-- The left-linear system invariant of the Lehmann iteration: after pivoting
on the nodes of done, every entry satisfies
F i k = A i k + sum over j in done of A i j * F j k. -/
def InvP {κ α : Type} (R : SR α) (A : κ → κ → α) (done : List κ)
    (F : κ → κ → α) : Prop :=
  ∀ i k, F i k = R.add (A i k) (sumOver R done (fun j => R.mul (A i j) (F j k)))

/-- Carrier of a small noncommutative semiring used to separate the two
orientations of the Lehmann fixpoint equation: the boolean span of the 3x3
matrix units E11 + E22 (field d), E00, E01, E02 and E12, which is closed
under matrix addition and multiplication. -/
structure SRC where
  d : Bool
  m00 : Bool
  m01 : Bool
  m02 : Bool
  m12 : Bool
deriving DecidableEq, Fintype

/-- Matrix addition on the span: componentwise or. -/
def SRC.plus (x y : SRC) : SRC :=
  ⟨x.d || y.d, x.m00 || y.m00, x.m01 || y.m01, x.m02 || y.m02, x.m12 || y.m12⟩

/-- Matrix multiplication restricted to the span. -/
def SRC.times (x y : SRC) : SRC :=
  ⟨x.d && y.d,
   x.m00 && y.m00,
   (x.m00 && y.m01) || (x.m01 && y.d),
   (x.m00 && y.m02) || (x.m01 && y.m12) || (x.m02 && y.d),
   (x.d && y.m12) || (x.m12 && y.d)⟩

/-- The zero matrix. -/
def SRC.null : SRC := ⟨false, false, false, false, false⟩

/-- The identity matrix E00 + E11 + E22. -/
def SRC.unit : SRC := ⟨true, true, false, false, false⟩

/-- The matrix E00 + E12: a self-loop at node 0 and an edge from 1 to 2. -/
def srcW : SRC := ⟨false, true, false, false, true⟩

/-- A non-minimal solution of the left closure equation at srcW: the
reflexive-transitive closure of srcW plus the extra entry E01 (which is
self-justified through the self-loop at node 0). -/
def srcS : SRC := ⟨true, true, true, false, true⟩

/-- Minimal reflexive-transitive closure on the span: I + x + x * x (paths of
length at most two suffice for three nodes). -/
def SRC.minStar (x : SRC) : SRC :=
  SRC.plus SRC.unit (SRC.plus x (SRC.times x x))

/-- The star: the minimal closure everywhere except at srcW, where the
non-minimal solution srcS is chosen.  Every value satisfies the left closure
equation star x = 1 + x * star x. -/
def SRC.star (x : SRC) : SRC :=
  if x = srcW then srcS else SRC.minStar x

/-- The SRC semiring. -/
def srcSR : SR SRC :=
  { zero := SRC.null, one := SRC.unit, add := SRC.plus, mul := SRC.times,
    star := SRC.star, approx_eq := fun a b => a == b }

/-- The one-node chart carrying srcW, input of the C4 counterexample. -/
def c4W : Chart (Nat × Nat) SRC := [((0, 0), srcW)]

/-- A chart read as a total function on pairs. -/
def chartFun {κ α : Type} [DecidableEq κ] (z : α) (W : Chart (κ × κ) α) :
    κ → κ → α :=
  fun a b => cget z W (a, b)

/-- Lookup in the preterminal memo (a Python dict from terminal to the rule
invented for it, modelled by terminal to invented head). -/
def mfind : List (Sym × Sym) → Sym → Option Sym
  | [], _ => none
  | (k, v) :: rest, x => if k = x then some v else mfind rest x

/-- Body processing of CFG.separate_terminals: every terminal occurrence is
replaced by the head of its preterminal rule, inventing the unit-weight rule
(one, gen, terminal) on first use.  Mirrors the generator expression in the
Python code, where the invented rule is appended while the substituted body is
being evaluated.  When one = zero the Python code would crash reading .head of
the dropped rule; the embedding still substitutes the generated head, and the
theorems that rely on the rule being present assume one differs from zero. -/
def sepTermBody {α : Type} [DecidableEq α] (R : SR α) (g : CFG α) :
    List Sym → CFG α → List (Sym × Sym) → Nat →
      (List Sym × CFG α × List (Sym × Sym) × Nat)
  | [], new, memo, c => ([], new, memo, c)
  | y :: rest, new, memo, c =>
      if y ∈ g.V then
        match mfind memo y with
        | some h =>
            let r := sepTermBody R g rest new memo c
            (h :: r.1, r.2)
        | none =>
            let h := Sym.gen c
            let new1 := CFG.add R new R.one h [y]
            let r := sepTermBody R g rest new1 (memo ++ [(y, h)]) (c + 1)
            (h :: r.1, r.2)
      else
        let r := sepTermBody R g rest new memo c
        (y :: r.1, r.2)

/-- One rule of CFG.separate_terminals: a rule that is already preterminal
(single terminal body) is copied with its original weight; any other rule has
its body substituted through sepTermBody. -/
def sepTermStep {α : Type} [DecidableEq α] (R : SR α) (g : CFG α)
    (st : CFG α × List (Sym × Sym) × Nat) (r : Rule α) :
    CFG α × List (Sym × Sym) × Nat :=
  match hb : r.body with
  | [y] =>
      if y ∈ g.V then (CFG.add R st.1 r.w r.head r.body, st.2)
      else
        let p := sepTermBody R g r.body st.1 st.2.1 st.2.2
        (CFG.add R p.2.1 r.w r.head p.1, p.2.2.1, p.2.2.2)
  | _ =>
      let p := sepTermBody R g r.body st.1 st.2.1 st.2.2
      (CFG.add R p.2.1 r.w r.head p.1, p.2.2.1, p.2.2.2)

/-- CFG.separate_terminals over the whole rule list, threading the memo and
the counter. -/
def CFG.separate_terminals {α : Type} [DecidableEq α] (R : SR α) (g : CFG α)
    (c : Nat) : CFG α × Nat :=
  let final := g.rules.foldl (sepTermStep R g) (g.spawn, ([], c))
  (final.1, final.2.2)

/-- Total size measure of the binarize stack: each rule contributes three to
the power of its body length.  Every loop step strictly decreases it, so it
bounds the number of iterations. -/
def stackMeasure {α : Type} (st : List (Rule α)) : Nat :=
  (st.map (fun r => 3 ^ r.body.length)).sum

/-- The binarize loop.  The Python code pops from the end of the stack list;
the stack is modelled with its head as the top.  A rule with more than two
body symbols is folded: a fresh rule (one, gen, body[0:2]) and the shortened
rule (w, head, gen :: body[2:]) are pushed, shortened rule on top.  The fuel
is always chosen at least the stack measure plus one, so the zero-fuel branch
is never reached. -/
def binGo {α : Type} [DecidableEq α] (R : SR α) :
    Nat → List (Rule α) → CFG α → Nat → CFG α × Nat
  | 0, _, new, c => (new, c)
  | _ + 1, [], new, c => (new, c)
  | fuel + 1, p :: rest, new, c =>
      if p.body.length ≤ 2 then
        binGo R fuel rest (CFG.add R new p.w p.head p.body) c
      else
        binGo R fuel
          (⟨p.w, p.head, Sym.gen c :: p.body.drop 2⟩ ::
            ⟨R.one, Sym.gen c, p.body.take 2⟩ :: rest) new (c + 1)

/-- CFG.binarize: fold every rule of width above two down to width two,
inventing fresh heads with the global counter. -/
def CFG.binarize {α : Type} [DecidableEq α] (R : SR α) (g : CFG α) (c : Nat) :
    CFG α × Nat :=
  binGo R (stackMeasure g.rules + 1) g.rules.reverse g.spawn c

/-- The routing index of the agenda: for a symbol u, all pairs (rule, k) such
that the rule has u at body position k, in rule order then position order. -/
def routingList {α : Type} (rules : List (Rule α)) (u : Sym) :
    List (Rule α × Nat) :=
  rules.flatMap (fun r =>
    r.body.enum.filterMap (fun p => if p.2 = u then some (r, p.1) else none))

/-- The semi-naive delta product of the agenda: starting from the rule weight,
multiply through the body in order; occurrences of the updated symbol u take
new before position k, the delta v at position k, and the old value after it;
other symbols take their old value. -/
def agendaW {α : Type} [DecidableEq α] (R : SR α) (old : Chart Sym α)
    (u : Sym) (newv v : α) (r : Rule α) (k : Nat) : α :=
  r.body.enum.foldl
    (fun W p =>
      R.mul W
        (if p.2 = u then
          (if p.1 < k then newv else if p.1 = k then v else cget R.zero old u)
        else cget R.zero old p.2))
    r.w

/-- The agenda loop (CFG.agenda): pop the most recently inserted update
(Python dict popitem), skip it when it is within tolerance of the stored
value, and otherwise push the delta product through every rule containing the
updated symbol. -/
def agendaGo {α : Type} [DecidableEq α] (R : SR α) (rules : List (Rule α)) :
    Nat → Chart Sym α → Chart Sym α → Chart Sym α
  | 0, old, _ => old
  | fuel + 1, old, change =>
      match change.getLast? with
      | none => old
      | some (u, v) =>
          let change1 := change.dropLast
          let newv := R.add (cget R.zero old u) v
          if R.approx_eq (cget R.zero old u) newv then
            agendaGo R rules fuel old change1
          else
            let change2 := (routingList rules u).foldl
              (fun ch p =>
                cadd R.zero R.add ch p.1.head (agendaW R old u newv v p.1 p.2))
              change1
            agendaGo R rules fuel (cset R.zero old u newv) change2

/-- CFG.agenda: semi-naive evaluation of the nonterminal tree-sums; the
change chart is seeded with one at every terminal and with the weight of
every nullary rule. -/
def CFG.agenda {α : Type} [DecidableEq α] (R : SR α) (g : CFG α)
    (maxIters : Nat) : Chart Sym α :=
  let change0 := g.V.foldl (fun ch a => cadd R.zero R.add ch a R.one) []
  let change1 := g.rules.foldl
    (fun ch r => if r.body = [] then cadd R.zero R.add ch r.head r.w else ch)
    change0
  agendaGo R g.rules maxIters [] change1

/-- CFG.null_weight: the total weight of deriving the empty string from each
nonterminal, computed by running the agenda on the grammar restricted to the
rules whose bodies contain no terminal, with an empty vocabulary. -/
def CFG.null_weight {α : Type} [DecidableEq α] (R : SR α) (g : CFG α) :
    Chart Sym α :=
  let ecfg := g.rules.foldl
    (fun e r =>
      if r.body.any (fun y => decide (y ∈ g.V)) then e
      else CFG.add R e r.w r.head r.body)
    (g.spawnV [])
  CFG.agenda R ecfg 10000

/-- All binary masks over a body of length n, in the order of the Python
itertools.product([0, 1], repeat=n): the first position varies slowest and
0 (false = keep) precedes 1 (true = erase with the null weight). -/
def masks : Nat → List (List Bool)
  | 0 => [[]]
  | n + 1 => (masks n).map (false :: ·) ++ (masks n).map (true :: ·)

/-- The weight of one masked copy of a rule: multiply the rule weight by the
null weight of every erased body symbol, in body order. -/
def maskWeight {α : Type} [DecidableEq α] (R : SR α) (null : Chart Sym α)
    (r : Rule α) (B : List Bool) : α :=
  (r.body.zip B).foldl
    (fun v p => if p.2 then R.mul v (cget R.zero null p.1) else v) r.w

/-- The body of one masked copy of a rule: the kept symbols, each renamed
through f. -/
def maskBody (f : Sym → Sym) (body : List Sym) (B : List Bool) : List Sym :=
  (body.zip B).filterMap (fun p => if p.2 then none else some (f p.1))

/-- The rename applied by push_null_weights: keep the name when the null
weight is zero or the symbol is the start, otherwise apply rename. -/
def pushRename {α : Type} [DecidableEq α] (R : SR α) (g : CFG α)
    (null : Chart Sym α) (rename : Sym → Sym) (x : Sym) : Sym :=
  if cget R.zero null x = R.zero ∨ x = g.S then x else rename x

/-- CFG._push_null_weights.  Returns none when the Python assertion fires
(the start symbol occurs in some body).  Otherwise: the (possibly dropped)
start nullary rule, the recovery rules when requested, and for every
non-nullary rule one copy per binary mask, dropping masks that would give an
empty body. -/
def pushNullWeights {α : Type} [DecidableEq α] (R : SR α) (g : CFG α)
    (null : Chart Sym α) (recovery : Bool) (rename : Sym → Sym) :
    Option (CFG α) :=
  if g.rules.any (fun r => decide (g.S ∈ r.body)) then none
  else
    let f := pushRename R g null rename
    let rcfg0 := CFG.add R g.spawn (cget R.zero null g.S) g.S []
    let rcfg1 :=
      if recovery then
        g.N.foldl
          (fun rc x =>
            if f x = x then rc
            else CFG.add R (CFG.add R rc (cget R.zero null x) x []) R.one x [f x])
          rcfg0
      else rcfg0
    some (g.rules.foldl
      (fun rc r =>
        if r.body = [] then rc
        else (masks r.body.length).foldl
          (fun rc B =>
            let body' := maskBody f r.body B
            if 0 < body'.length then
              CFG.add R rc (maskWeight R null r B) (f r.head) body'
            else rc)
          rc)
      rcfg1)

/-- CFG.nullaryremove: binarize (unless disabled), separate the start symbol,
then push the null weights; recovery and rename are forwarded. -/
def CFG.nullaryremove {α : Type} [DecidableEq α] (R : SR α) (g : CFG α)
    (c : Nat) (binFlag recovery : Bool) (rename : Sym → Sym) :
    Option (CFG α × Nat) :=
  let s1 := if binFlag then CFG.binarize R g c else (g, c)
  let s2 := CFG.separate_start R s1.1 s1.2
  match pushNullWeights R s2.1 (CFG.null_weight R s2.1) recovery rename with
  | none => none
  | some g3 => some (g3, s2.2)

/-- The number of nullary rules in a rule list. -/
def countNullary {α : Type} (rules : List (Rule α)) : Nat :=
  (rules.filter (fun r => decide (r.body = []))).length

/-- Is the symbol a Slash. -/
def Sym.isSlash : Sym → Bool
  | .slash _ _ _ => true
  | _ => false

/-- binarize when the flag is set, identity otherwise. -/
def binIf {α : Type} [DecidableEq α] (R : SR α) (g : CFG α) (c : Nat)
    (binFlag : Bool) : CFG α × Nat :=
  if binFlag then CFG.binarize R g c else (g, c)

/-- A rule on which the accumulation loop of elim_nullary_slash raises an
AssertionError: a nullary rule at a non-Slash head, or a unary rule with a
Slash head whose body symbol is not a Slash. -/
def elimBad {α : Type} (r : Rule α) : Bool :=
  match r.body with
  | [] => !r.head.isSlash
  | [y] => r.head.isSlash && !y.isSlash
  | _ => false

/-- One rule of the accumulation loop of elim_nullary_slash: unary rules
between Slash symbols feed the chart W, nullary rules at Slash heads feed the
vector v, and the two assertions abort (none) on any elimBad rule. -/
def elimStep {α : Type} [DecidableEq α] (R : SR α)
    (W : Chart (Sym × Sym) α) (v : Chart Sym α) (r : Rule α) :
    Option (Chart (Sym × Sym) α × Chart Sym α) :=
  match r.body with
  | [y] =>
      if r.head.isSlash then
        if y.isSlash then some (cadd R.zero R.add W (r.head, y) r.w, v)
        else none
      else some (W, v)
  | [] =>
      if r.head.isSlash then some (W, cadd R.zero R.add v r.head r.w)
      else none
  | _ => some (W, v)

/-- The accumulation loop of elim_nullary_slash over the rule list. -/
def elimLoop {α : Type} [DecidableEq α] (R : SR α) :
    List (Rule α) → Chart (Sym × Sym) α → Chart Sym α →
      Option (Chart (Sym × Sym) α × Chart Sym α)
  | [], W, v => some (W, v)
  | r :: rest, W, v =>
      match elimStep R W v r with
      | none => none
      | some p => elimLoop R rest p.1 p.2

/-- The null weights computed by elim_nullary_slash:
null[X] = sum over Y of K[X, Y] * v[Y] with K the Lehmann closure of W. -/
def elimNull {α : Type} [DecidableEq α] (R : SR α) (N : List Sym)
    (W : Chart (Sym × Sym) α) (v : Chart Sym α) : Chart Sym α :=
  let K := lehmann R N W
  N.foldl
    (fun ch X => N.foldl
      (fun ch Y =>
        cadd R.zero R.add ch X (R.mul (cget R.zero K (X, Y)) (cget R.zero v Y)))
      ch)
    []

/-- GLCT.elim_nullary_slash: binarize (unless disabled), accumulate the
unary-slash chart and the nullary-slash vector (aborting on the assertion
failures), close with Lehmann, and push the resulting null weights (which
itself aborts when the start symbol occurs in a body). -/
def elimNullarySlash {α : Type} [DecidableEq α] (R : SR α) (g : CFG α)
    (c : Nat) (binFlag : Bool) : Option (CFG α × Nat) :=
  let s1 := binIf R g c binFlag
  match elimLoop R s1.1.rules [] [] with
  | none => none
  | some p =>
      (pushNullWeights R s1.1 (elimNull R s1.1.N p.1 p.2) false Sym.dollar).map
        (fun g2 => (g2, s1.2))

/-- Is this a unary rule over a nonterminal (the rules that unaryremove
eliminates). -/
def isUnaryNT {α : Type} (g : CFG α) (r : Rule α) : Bool :=
  match r.body with
  | [y] => !(decide (y ∈ g.V))
  | _ => false

/-- CFG.unaryremove: build the unary chain chart A[body[0], head] += w over
the unary nonterminal rules, close it with Lehmann over N, and for every
remaining rule (w, X, body) and every Y in N emit (W[X, Y] * w, Y, body). -/
def CFG.unaryremove {α : Type} [DecidableEq α] (R : SR α) (g : CFG α) :
    CFG α :=
  let A := g.rules.foldl
    (fun ch r =>
      match r.body with
      | [y] => if y ∈ g.V then ch else cadd R.zero R.add ch (y, r.head) r.w
      | _ => ch)
    []
  let W := lehmann R g.N A
  g.rules.foldl
    (fun new r =>
      if isUnaryNT g r then new
      else g.N.foldl
        (fun new Y =>
          CFG.add R new (R.mul (cget R.zero W (r.head, Y)) r.w) Y r.body)
        new)
    g.spawn

/-- Apply a function n times (used to saturate the trim worklists, which the
Python code runs with a set-based agenda; the least fixpoint is reached after
at most as many rounds as there are addable symbols). -/
def iterN {β : Type} (f : β → β) : Nat → β → β
  | 0, x => x
  | n + 1, x => iterN f n (f x)

/-- One bottom-up round of trim: add the head of every rule whose body lies in
the current productive set. -/
def trimCStep {α : Type} (rules : List (Rule α)) (C : List Sym) : List Sym :=
  rules.foldl
    (fun C r => if r.body.all (fun b => decide (b ∈ C)) then addN C r.head
      else C)
    C

/-- One top-down round of trim: for every rule whose head is reachable, add
its body symbols that are productive. -/
def trimTStep {α : Type} (rules : List (Rule α)) (C T : List Sym) :
    List Sym :=
  rules.foldl
    (fun T r =>
      if decide (r.head ∈ T) then
        r.body.foldl (fun T b => if decide (b ∈ C) then addN T b else T) T
      else T)
    T

/-- CFG._trim: keep the rules whose head and body lie in the given symbol set
(and whose weight is nonzero, which CFG.add enforces anyway). -/
def trimFilter {α : Type} [DecidableEq α] (R : SR α) (g : CFG α)
    (syms : List Sym) : CFG α :=
  g.rules.foldl
    (fun new r =>
      if decide (r.head ∈ syms) && !(decide (r.w = R.zero)) &&
          r.body.all (fun b => decide (b ∈ syms)) then
        CFG.add R new r.w r.head r.body
      else new)
    g.spawn

/-- CFG.trim: bottom-up productive set (vocabulary plus nullary heads,
saturated), then unless bottomup_only the top-down reachable set seeded with
the start symbol; retain the rules within the resulting set. -/
def CFG.trim {α : Type} [DecidableEq α] (R : SR α) (g : CFG α)
    (bottomupOnly : Bool) : CFG α :=
  let C0 := g.V ++ (g.rules.filter (fun r => decide (r.body = []))).map
    (fun r => r.head)
  let C := iterN (trimCStep g.rules) (g.rules.length + 1) C0
  if bottomupOnly then trimFilter R g C
  else
    let T := iterN (trimTStep g.rules C)
      ((g.rules.map (fun r => r.body.length)).sum + 1) [g.S]
    trimFilter R g T

/-- CFG.in_cnf: every rule is nullary with head S, unary with a terminal
body, or binary over nonterminals that differ from S.  (The Python version
also asserts r.head in self.N, which holds for every grammar assembled
through CFG.add.) -/
def CFG.in_cnf {α : Type} [DecidableEq α] (g : CFG α) : Bool :=
  g.rules.all (fun r =>
    (decide (r.body = []) && decide (r.head = g.S)) ||
    (match r.body with
     | [y] => decide (y ∈ g.V)
     | _ => false) ||
    (match r.body with
     | [y1, y2] =>
         !decide (y1 ∈ g.V) && !decide (y2 ∈ g.V) &&
           !decide (y1 = g.S) && !decide (y2 = g.S)
     | _ => false))

/-- CFG.cnf as the code composes it: separate_terminals first, then binarize,
nullaryremove (with its internal binarize and separate_start), unaryremove,
and trim last.  The Python property ends with assert new.in_cnf(); the
theorem about this definition shows that assertion cannot fire when the
pipeline returns a grammar. -/
def CFG.cnf {α : Type} [DecidableEq α] (R : SR α) (g : CFG α) (c : Nat) :
    Option (CFG α × Nat) :=
  let s1 := CFG.separate_terminals R g c
  let s2 := CFG.binarize R s1.1 s1.2
  match CFG.nullaryremove R s2.1 s2.2 true false Sym.dollar with
  | none => none
  | some p => some (CFG.trim R (CFG.unaryremove R p.1) false, p.2)

/-- The composition in the order the spec writes it (trim applied first,
separate_terminals last), for comparison with CFG.cnf. -/
def cnfSpecOrder {α : Type} [DecidableEq α] (R : SR α) (g : CFG α)
    (c : Nat) : Option (CFG α × Nat) :=
  let t := CFG.trim R g false
  let u := CFG.unaryremove R t
  match CFG.nullaryremove R u c true false Sym.dollar with
  | none => none
  | some p =>
      let b := CFG.binarize R p.1 p.2
      some (CFG.separate_terminals R b.1 b.2)

/-- The composition in the amended order (the order the code uses):
separate_terminals first, trim last. -/
def cnfAmendedOrder {α : Type} [DecidableEq α] (R : SR α) (g : CFG α)
    (c : Nat) : Option (CFG α × Nat) :=
  let s1 := CFG.separate_terminals R g c
  let s2 := CFG.binarize R s1.1 s1.2
  match CFG.nullaryremove R s2.1 s2.2 true false Sym.dollar with
  | none => none
  | some p => some (CFG.trim R (CFG.unaryremove R p.1) false, p.2)

/-- The cleanliness assumptions on input grammars under which the CNF
pipeline is verified: the vocabulary consists of plain named symbols, the
start symbol is a plain named symbol outside the vocabulary, and no rule head
is a terminal. -/
def Clean {α : Type} (g : CFG α) : Prop :=
  (∀ y ∈ g.V, ∃ s, y = Sym.base s) ∧ g.S ∉ g.V ∧ (∃ s, g.S = Sym.base s) ∧
    (∀ r ∈ g.rules, r.head ∉ g.V)

/-- Terminal discipline of a rule: either a preterminal (sole terminal body)
or a body free of terminals. -/
def TermOk {α : Type} (V : List Sym) (r : Rule α) : Prop :=
  (∃ t, r.body = [t] ∧ t ∈ V) ∨ (∀ y ∈ r.body, y ∉ V)

/-- All rules of a grammar satisfy a property. -/
def RulesP {α : Type} (P : Rule α → Prop) (g : CFG α) : Prop :=
  ∀ r ∈ g.rules, P r

/-- Python equality of Rule objects (Rule.eq): it compares the weight, the
cached hash, the head and the body; with a perfect hash this is componentwise
equality of (w, head, body). -/
def ruleEqPy {α : Type} [DecidableEq α] (r1 r2 : Rule α) : Bool :=
  decide (r1.w = r2.w) && decide (r1.head = r2.head) && decide (r1.body = r2.body)

/-- The determinant of the Python hash of a Rule (Rule.hash caches
hash((head, body))): hashes agree exactly when these keys agree. -/
def ruleHashKey {α : Type} (r : Rule α) : Sym × List Sym := (r.head, r.body)

end LeftCorner

namespace LeftCorner

/-- Sample rule with weight 2. -/
def c6r1 : Rule Nat := ⟨2, Sym.base "X", [Sym.base "a"]⟩

/-- Sample rule with the same head and body but weight 3. -/
def c6r2 : Rule Nat := ⟨3, Sym.base "X", [Sym.base "a"]⟩

/-- A sample grammar: start S, vocabulary a, one rule S to a with weight one. -/
def c7g : CFG Bool :=
  { S := Sym.base "S", V := [Sym.base "a"], N := [Sym.base "S"],
    rules := [⟨true, Sym.base "S", [Sym.base "a"]⟩] }

/-- C6 counterexample: two rules with equal head and body but different
weights are not equal under Rule.eq (which compares weights), although
their hashes agree; the claim says they would be equal. -/
theorem C6_counterexample :
    ruleEqPy c6r1 c6r2 = false ∧ c6r1.head = c6r2.head ∧ c6r1.body = c6r2.body ∧
      ruleHashKey c6r1 = ruleHashKey c6r2 := by
  decide

/-- C6 amended: Rule.eq holds exactly when weight, head and body all agree
(so rules with equal head and body but different weights are not equal), while
the hash is determined by (head, body) alone, so such rules are hash-equal. -/
theorem C6_amended {α : Type} [DecidableEq α] (r1 r2 : Rule α) :
    (ruleEqPy r1 r2 = true ↔ (r1.w = r2.w ∧ r1.head = r2.head ∧ r1.body = r2.body)) ∧
      (ruleHashKey r1 = ruleHashKey r2 ↔ (r1.head = r2.head ∧ r1.body = r2.body)) := by
  constructor
  · simp [ruleEqPy, and_assoc]
  · constructor
    · intro h
      exact ⟨congrArg Prod.fst h, congrArg Prod.snd h⟩
    · intro ⟨h1, h2⟩
      simp [ruleHashKey, h1, h2]

/-- C6 amended, witnessed at the sample rules. -/
theorem C6_amended_witness :
    ((ruleEqPy c6r1 c6r2 = true ↔ (c6r1.w = c6r2.w ∧ c6r1.head = c6r2.head ∧ c6r1.body = c6r2.body)) ∧
      (ruleHashKey c6r1 = ruleHashKey c6r2 ↔ (c6r1.head = c6r2.head ∧ c6r1.body = c6r2.body))) :=
  C6_amended c6r1 c6r2

/-- C7 counterexample: adding a rule with weight zero returns the grammar
unchanged, so the head is not registered in N; the claim says the head is
always added to N. -/
theorem C7_counterexample :
    CFG.add boolSR c7g boolSR.zero (Sym.base "X") [Sym.base "a"] = c7g ∧
      (Sym.base "X" ∈ (CFG.add boolSR c7g boolSR.zero (Sym.base "X") [Sym.base "a"]).N) = False := by
  constructor
  · decide
  · decide

/-- C7 amended: add with weight zero drops the rule and leaves the grammar
entirely unchanged (in particular the head is not added to N); add with a
nonzero weight registers the head in N and appends the rule. -/
theorem C7_amended {α : Type} [DecidableEq α] (R : SR α) (g : CFG α)
    (w : α) (head : Sym) (body : List Sym) :
    (w = R.zero → CFG.add R g w head body = g) ∧
      (w ≠ R.zero →
        (CFG.add R g w head body).rules = g.rules ++ [⟨w, head, body⟩] ∧
          head ∈ (CFG.add R g w head body).N) := by
  constructor
  · intro h
    simp [CFG.add, h]
  · intro h
    refine ⟨by simp [CFG.add, h], ?_⟩
    simp only [CFG.add, if_neg h]
    by_cases hm : head ∈ g.N
    · simp [addN, hm]
    · simp [addN, hm]

/-- C7 amended, witnessed on the sample grammar: the zero-weight branch at
weight zero and the nonzero branch at weight one. -/
theorem C7_amended_witness :
    (CFG.add boolSR c7g false (Sym.base "X") [] = c7g) ∧
      ((CFG.add boolSR c7g true (Sym.base "X") []).rules
          = c7g.rules ++ [⟨true, Sym.base "X", []⟩] ∧
        Sym.base "X" ∈ (CFG.add boolSR c7g true (Sym.base "X") []).N) :=
  ⟨(C7_amended boolSR c7g false (Sym.base "X") []).1 rfl,
   (C7_amended boolSR c7g true (Sym.base "X") []).2 (by decide)⟩

/-- CFG.add never changes the start symbol. -/
theorem add_S {α : Type} [DecidableEq α] (R : SR α) (g : CFG α)
    (w : α) (head : Sym) (body : List Sym) :
    (CFG.add R g w head body).S = g.S := by
  unfold CFG.add
  split <;> rfl

/-- CFG.add never changes the vocabulary. -/
theorem add_V {α : Type} [DecidableEq α] (R : SR α) (g : CFG α)
    (w : α) (head : Sym) (body : List Sym) :
    (CFG.add R g w head body).V = g.V := by
  unfold CFG.add
  split <;> rfl

/-- The rules after CFG.add: unchanged for weight zero, appended otherwise. -/
theorem add_rules {α : Type} [DecidableEq α] (R : SR α) (g : CFG α)
    (w : α) (head : Sym) (body : List Sym) :
    (CFG.add R g w head body).rules
      = g.rules ++ (if w = R.zero then [] else [⟨w, head, body⟩]) := by
  unfold CFG.add
  split <;> simp_all

/-- Adding a list of rules appends exactly the nonzero-weight ones. -/
theorem addAll_rules {α : Type} [DecidableEq α] (R : SR α) (h0 : CFG α)
    (rs : List (Rule α)) :
    (addAll R h0 rs).rules = h0.rules ++ keepNZ R rs := by
  induction rs generalizing h0 with
  | nil => simp [addAll, keepNZ]
  | cons r rest ih =>
      simp only [addAll, List.foldl_cons, keepNZ, List.filter_cons]
      rw [show (List.foldl (fun h r => CFG.add R h r.w r.head r.body)
            (CFG.add R h0 r.w r.head r.body) rest)
          = addAll R (CFG.add R h0 r.w r.head r.body) rest from rfl, ih]
      rw [add_rules]
      by_cases hz : r.w = R.zero
      · simp [hz, keepNZ]
      · simp [hz, keepNZ]

/-- Adding rules never changes the start symbol. -/
theorem addAll_S {α : Type} [DecidableEq α] (R : SR α) (h0 : CFG α)
    (rs : List (Rule α)) : (addAll R h0 rs).S = h0.S := by
  induction rs generalizing h0 with
  | nil => rfl
  | cons r rest ih =>
      simp only [addAll, List.foldl_cons]
      rw [show (List.foldl (fun h r => CFG.add R h r.w r.head r.body)
            (CFG.add R h0 r.w r.head r.body) rest)
          = addAll R (CFG.add R h0 r.w r.head r.body) rest from rfl, ih, add_S]

/-- Adding rules never changes the vocabulary. -/
theorem addAll_V {α : Type} [DecidableEq α] (R : SR α) (h0 : CFG α)
    (rs : List (Rule α)) : (addAll R h0 rs).V = h0.V := by
  induction rs generalizing h0 with
  | nil => rfl
  | cons r rest ih =>
      simp only [addAll, List.foldl_cons]
      rw [show (List.foldl (fun h r => CFG.add R h r.w r.head r.body)
            (CFG.add R h0 r.w r.head r.body) rest)
          = addAll R (CFG.add R h0 r.w r.head r.body) rest from rfl, ih, add_V]

/-- C10: for a terminal a, derivations yields exactly a itself regardless of
the height bound (the terminal branch precedes the height cutoff), while a
nonterminal with a nonpositive bound yields nothing. -/
theorem C10_derivations_terminal {α : Type} (g : CFG α) (a X : Sym) (H : Int)
    (ha : g.is_terminal a = true) (hX : g.is_terminal X = false) :
    g.derivations a H = [Deriv.term a] ∧ (H ≤ 0 → g.derivations X H = []) := by
  constructor
  · rw [CFG.derivations, if_pos ha]
  · intro hneg
    rw [CFG.derivations, if_neg (by simp [hX]), if_pos hneg]

/-- C10, witnessed on the sample grammar at height bound -3: the terminal a
still yields itself, the nonterminal start yields nothing. -/
theorem C10_derivations_terminal_witness :
    c7g.derivations (Sym.base "a") (-3) = [Deriv.term (Sym.base "a")] ∧
      c7g.derivations (Sym.base "S") (-3) = [] :=
  ⟨(C10_derivations_terminal c7g (Sym.base "a") (Sym.base "S") (-3)
      (by decide) (by decide)).1,
   (C10_derivations_terminal c7g (Sym.base "a") (Sym.base "S") (-3)
      (by decide) (by decide)).2 (by decide)⟩

/-- C8: separate_start is idempotent.  If the (freshly generated) start symbol
cannot collide with a symbol of the grammar, then after one application the
new start appears in no rule body, so the second application returns its input
unchanged. -/
theorem C8_separate_start_idempotent {α : Type} [DecidableEq α] (R : SR α)
    (g : CFG α) (c : Nat)
    (hfresh : ∀ r ∈ g.rules, Sym.gen c ∉ r.body) (hS : Sym.gen c ≠ g.S) :
    CFG.separate_start R (CFG.separate_start R g c).1
        (CFG.separate_start R g c).2
      = CFG.separate_start R g c := by
  by_cases htrig : g.rules.any (fun r => decide (g.S ∈ r.body))
  · have hsp : CFG.separate_start R g c
        = (addAll R (CFG.add R (g.spawnS (Sym.gen c)) R.one (Sym.gen c) [g.S])
            g.rules, c + 1) := by
      rw [CFG.separate_start, if_pos htrig]
      rfl
    rw [hsp]
    set g1 := addAll R (CFG.add R (g.spawnS (Sym.gen c)) R.one (Sym.gen c) [g.S])
      g.rules with hg1
    have hS1 : g1.S = Sym.gen c := by
      rw [hg1, addAll_S, add_S]
      rfl
    have hrules : g1.rules
        = (if R.one = R.zero then ([] : List (Rule α))
            else [⟨R.one, Sym.gen c, [g.S]⟩]) ++ keepNZ R g.rules := by
      rw [hg1, addAll_rules, add_rules]
      rfl
    have hnot : g1.rules.any (fun r => decide (g1.S ∈ r.body)) = false := by
      rw [List.any_eq_false]
      intro r hr
      simp only [decide_eq_true_eq]
      rw [hrules] at hr
      rcases List.mem_append.mp hr with h1 | h2
      · have : r = ⟨R.one, Sym.gen c, [g.S]⟩ := by
          by_cases hz : R.one = R.zero
          · simp [hz] at h1
          · simpa [hz] using h1
        rw [hS1, this]
        simp only [List.mem_singleton]
        intro hcon
        exact hS hcon
      · have hrg : r ∈ g.rules := List.mem_of_mem_filter h2
        rw [hS1]
        exact hfresh r hrg
    rw [CFG.separate_start, if_neg (by simp [hnot])]
  · have hsp : CFG.separate_start R g c = (g, c) := by
      rw [CFG.separate_start, if_neg htrig]
    rw [hsp]
    show CFG.separate_start R g c = (g, c)
    exact hsp

/-- Grammar with the start symbol in a body, to witness the triggered branch
of separate_start. -/
def c8g : CFG Bool :=
  { S := Sym.base "S", V := [Sym.base "a"], N := [Sym.base "S"],
    rules := [⟨true, Sym.base "S", [Sym.base "S", Sym.base "a"]⟩] }

/-- C8, witnessed on a left-recursive grammar where the start symbol occurs in
a body, so the transformation actually fires. -/
theorem C8_separate_start_idempotent_witness :
    CFG.separate_start boolSR (CFG.separate_start boolSR c8g 0).1
        (CFG.separate_start boolSR c8g 0).2
      = CFG.separate_start boolSR c8g 0 :=
  C8_separate_start_idempotent boolSR c8g 0 (by decide) (by decide)

section ChartLemmas

variable {κ α : Type} [DecidableEq κ] [DecidableEq α]

/-- Reading a removed key gives the default. -/
theorem cget_cremove_self (z : α) (c : Chart κ α) (k : κ) :
    cget z (cremove c k) k = z := by
  induction c with
  | nil => rfl
  | cons p rest ih =>
      obtain ⟨k', v⟩ := p
      by_cases h : k' = k
      · simpa [cremove, h] using ih
      · simpa [cremove, cget, h] using ih

/-- Removing one key does not affect reads at other keys. -/
theorem cget_cremove_ne (z : α) (c : Chart κ α) (k k' : κ) (h : k' ≠ k) :
    cget z (cremove c k) k' = cget z c k' := by
  induction c with
  | nil => rfl
  | cons p rest ih =>
      obtain ⟨k0, v⟩ := p
      by_cases h0 : k0 = k
      · subst h0
        simpa [cremove, cget, Ne.symm h] using ih
      · by_cases h1 : k0 = k'
        · subst h1
          simp [cremove, cget, h0]
        · simpa [cremove, cget, h0, h1] using ih

/-- An absent key reads as the default. -/
theorem cget_of_chas_false (z : α) (c : Chart κ α) (k : κ)
    (h : chas c k = false) : cget z c k = z := by
  induction c with
  | nil => rfl
  | cons p rest ih =>
      obtain ⟨k0, v⟩ := p
      by_cases h0 : k0 = k
      · simp [chas, h0] at h
      · simp only [chas, if_neg h0] at h
        simpa [cget, h0] using ih h

/-- Reading an appended chart: the first chart wins when it has the key. -/
theorem cget_append (z : α) (c d : Chart κ α) (k : κ) :
    cget z (c ++ d) k = if chas c k then cget z c k else cget z d k := by
  induction c with
  | nil => simp [cget, chas]
  | cons p rest ih =>
      obtain ⟨k0, v⟩ := p
      by_cases h0 : k0 = k
      · simp [cget, chas, h0]
      · simpa [cget, chas, h0] using ih

/-- After the in-place update of an existing key, reading it gives the new
value. -/
theorem cget_cupdate (z : α) (c : Chart κ α) (k : κ) (v : α)
    (h : chas c k = true) : cget z (cupdate c k v) k = v := by
  induction c with
  | nil => simp [chas] at h
  | cons p rest ih =>
      obtain ⟨k0, v0⟩ := p
      by_cases h0 : k0 = k
      · subst h0
        simp [cupdate, cget]
      · simp only [chas, if_neg h0] at h
        simpa [cupdate, cget, h0] using ih h

/-- The in-place update of one key does not affect reads at other keys. -/
theorem cget_cupdate_ne (z : α) (c : Chart κ α) (k k' : κ) (v : α)
    (h : k' ≠ k) : cget z (cupdate c k v) k' = cget z c k' := by
  induction c with
  | nil => rfl
  | cons p rest ih =>
      obtain ⟨k0, v0⟩ := p
      by_cases h0 : k0 = k
      · subst h0
        simpa [cupdate, cget, Ne.symm h] using ih
      · by_cases h1 : k0 = k'
        · subst h1
          simp [cupdate, cget, h0]
        · simpa [cupdate, cget, h0, h1] using ih

/-- Reading the key just written gives the written value (also when the value
is zero, in which case the key was deleted). -/
theorem cget_cset_self (z : α) (c : Chart κ α) (k : κ) (v : α) :
    cget z (cset z c k v) k = v := by
  unfold cset
  by_cases hz : v = z
  · simpa [hz] using cget_cremove_self z c k
  · simp only [if_neg hz]
    by_cases hh : chas c k
    · simp [hh, cget_cupdate z c k v hh]
    · simp only [hh, Bool.false_eq_true, if_false]
      rw [cget_append]
      simp [hh, cget]

/-- Writing one key does not affect reads at other keys. -/
theorem cget_cset_ne (z : α) (c : Chart κ α) (k k' : κ) (v : α) (h : k' ≠ k) :
    cget z (cset z c k v) k' = cget z c k' := by
  unfold cset
  by_cases hz : v = z
  · simpa [hz] using cget_cremove_ne z c k k' h
  · simp only [if_neg hz]
    by_cases hh : chas c k
    · simp [hh, cget_cupdate_ne z c k k' v h]
    · simp only [hh, Bool.false_eq_true, if_false]
      rw [cget_append]
      by_cases hk' : chas c k'
      · simp [hk']
      · simp [hk', cget, Ne.symm h,
          cget_of_chas_false z c k' (Bool.not_eq_true _ ▸ eq_false_of_ne_true hk')]

/-- Reading the key of an accumulate gives the accumulated value. -/
theorem cget_cadd_self (z : α) (plus : α → α → α) (c : Chart κ α) (k : κ)
    (v : α) : cget z (cadd z plus c k v) k = plus (cget z c k) v :=
  cget_cset_self z c k _

/-- Accumulating at one key does not affect reads at other keys. -/
theorem cget_cadd_ne (z : α) (plus : α → α → α) (c : Chart κ α) (k k' : κ)
    (v : α) (h : k' ≠ k) : cget z (cadd z plus c k v) k' = cget z c k' :=
  cget_cset_ne z c k k' _ h

end ChartLemmas

section FoldLemmas

variable {κ α : Type} [DecidableEq κ] [DecidableEq α]

/-- The inner loop of the Lehmann pivot writes only keys (i, k) with k in ks. -/
theorem innerFold_cget_notmem (z : α) (f : κ → κ → α) (i : κ) (ks : List κ)
    (ch : Chart (κ × κ) α) (p : κ × κ) (h : p.1 ≠ i ∨ p.2 ∉ ks) :
    cget z (ks.foldl (fun ch k => cset z ch (i, k) (f i k)) ch) p
      = cget z ch p := by
  induction ks generalizing ch with
  | nil => rfl
  | cons k rest ih =>
      simp only [List.foldl_cons]
      have hne : p ≠ (i, k) := by
        rcases h with h | h
        · intro hc; exact h (by rw [hc])
        · intro hc
          apply h
          rw [hc]
          exact List.mem_cons_self k rest
      have hrest : p.1 ≠ i ∨ p.2 ∉ rest := by
        rcases h with h | h
        · exact Or.inl h
        · exact Or.inr (fun hc => h (List.mem_cons_of_mem k hc))
      rw [ih _ hrest, cget_cset_ne z ch (i, k) p (f i k) hne]

/-- The inner loop of the Lehmann pivot writes f i k at every key (i, k) with
k in ks. -/
theorem innerFold_cget_mem (z : α) (f : κ → κ → α) (i : κ) (ks : List κ)
    (ch : Chart (κ × κ) α) (k' : κ) (h : k' ∈ ks) :
    cget z (ks.foldl (fun ch k => cset z ch (i, k) (f i k)) ch) (i, k')
      = f i k' := by
  induction ks generalizing ch with
  | nil => simp at h
  | cons k rest ih =>
      simp only [List.foldl_cons]
      by_cases hmem : k' ∈ rest
      · exact ih _ hmem
      · have hk : k' = k := by
          rcases List.mem_cons.mp h with h1 | h2
          · exact h1
          · exact absurd h2 hmem
        subst hk
        rw [innerFold_cget_notmem z f i rest _ (i, k') (Or.inr hmem)]
        exact cget_cset_self z ch (i, k') (f i k')

/-- The double loop of the Lehmann pivot leaves rows outside is untouched. -/
theorem outerFold_cget_notmem (z : α) (f : κ → κ → α) (is ks : List κ)
    (ch : Chart (κ × κ) α) (p : κ × κ) (h : p.1 ∉ is) :
    cget z (is.foldl (fun ch i =>
        ks.foldl (fun ch k => cset z ch (i, k) (f i k)) ch) ch) p
      = cget z ch p := by
  induction is generalizing ch with
  | nil => rfl
  | cons i rest ih =>
      simp only [List.foldl_cons]
      have h1 : p.1 ∉ rest := fun hc => h (List.mem_cons_of_mem i hc)
      have h2 : p.1 ≠ i := fun hc => h (by rw [hc]; exact List.mem_cons_self i rest)
      rw [ih _ h1, innerFold_cget_notmem z f i ks ch p (Or.inl h2)]

/-- The double loop of the Lehmann pivot writes f i k at every key of
is x ks. -/
theorem outerFold_cget_mem (z : α) (f : κ → κ → α) (is ks : List κ)
    (ch : Chart (κ × κ) α) (i' k' : κ) (hi : i' ∈ is) (hk : k' ∈ ks) :
    cget z (is.foldl (fun ch i =>
        ks.foldl (fun ch k => cset z ch (i, k) (f i k)) ch) ch) (i', k')
      = f i' k' := by
  induction is generalizing ch with
  | nil => simp at hi
  | cons i rest ih =>
      simp only [List.foldl_cons]
      by_cases hmem : i' ∈ rest
      · exact ih _ hmem
      · have hii : i' = i := by
          rcases List.mem_cons.mp hi with h1 | h2
          · exact h1
          · exact absurd h2 hmem
        subst hii
        rw [outerFold_cget_notmem z f rest ks _ (i', k') hmem]
        exact innerFold_cget_mem z f i' ks ch k' hk

end FoldLemmas

section SumLemmas

variable {κ α : Type}

/-- Zero is also a right unit. -/
theorem add_zero_r (R : SR α) (L : SRLaws R) (a : α) : R.add a R.zero = a := by
  rw [L.add_comm, L.zero_add]

/-- Sums of pointwise-equal functions agree. -/
theorem sumOver_congr (R : SR α) (l : List κ) (f g : κ → α)
    (h : ∀ j ∈ l, f j = g j) : sumOver R l f = sumOver R l g := by
  induction l with
  | nil => rfl
  | cons j rest ih =>
      simp only [sumOver]
      rw [h j (by simp), ih (fun x hx => h x (by simp [hx]))]

/-- Sum over an appended list. -/
theorem sumOver_append (R : SR α) (L : SRLaws R) (l1 l2 : List κ) (f : κ → α) :
    sumOver R (l1 ++ l2) f = R.add (sumOver R l1 f) (sumOver R l2 f) := by
  induction l1 with
  | nil => simp [sumOver, L.zero_add]
  | cons j rest ih =>
      show R.add (f j) (sumOver R (rest ++ l2) f)
        = R.add (R.add (f j) (sumOver R rest f)) (sumOver R l2 f)
      rw [ih, L.add_assoc]

/-- Middle-exchange for addition. -/
theorem add_swap (R : SR α) (L : SRLaws R) (a b c d : α) :
    R.add (R.add a b) (R.add c d) = R.add (R.add a c) (R.add b d) := by
  rw [L.add_assoc, ← L.add_assoc b c d, L.add_comm b c, L.add_assoc c b d,
    ← L.add_assoc]

/-- A sum of pointwise additions splits into two sums. -/
theorem sumOver_split (R : SR α) (L : SRLaws R) (l : List κ) (f g : κ → α) :
    sumOver R l (fun j => R.add (f j) (g j))
      = R.add (sumOver R l f) (sumOver R l g) := by
  induction l with
  | nil => simp [sumOver, L.zero_add]
  | cons j rest ih =>
      simp only [sumOver]
      rw [ih, add_swap R L]

/-- A common right factor pulls out of a sum. -/
theorem sumOver_factor_right (R : SR α) (L : SRLaws R) (l : List κ)
    (g : κ → α) (C : α) :
    sumOver R l (fun j => R.mul (g j) C) = R.mul (sumOver R l g) C := by
  induction l with
  | nil => simp [sumOver, L.zero_mul]
  | cons j rest ih =>
      simp only [sumOver]
      rw [ih, L.right_distrib]

/-- The sum of zeros is zero. -/
theorem sumOver_zero (R : SR α) (L : SRLaws R) (l : List κ) :
    sumOver R l (fun _ => R.zero) = R.zero := by
  induction l with
  | nil => rfl
  | cons j rest ih =>
      simp only [sumOver]
      rw [ih, L.zero_add]

/-- Summing f j * delta(j, k) over a duplicate-free list containing k
extracts f k. -/
theorem sumOver_delta [DecidableEq κ] (R : SR α) (L : SRLaws R) (l : List κ)
    (k : κ) (f : κ → α) (hk : k ∈ l) (hnd : l.Nodup) :
    sumOver R l (fun j => R.mul (f j) (if j = k then R.one else R.zero))
      = f k := by
  induction l with
  | nil => simp at hk
  | cons j rest ih =>
      obtain ⟨hj, hrest⟩ := List.nodup_cons.mp hnd
      by_cases hjk : j = k
      · subst hjk
        have hzero : sumOver R rest
            (fun j' => R.mul (f j') (if j' = j then R.one else R.zero))
            = R.zero := by
          rw [sumOver_congr R rest _ (fun _ => R.zero)
            (fun x hx => by
              have : x ≠ j := fun hc => hj (hc ▸ hx)
              simp [this, L.mul_zero])]
          exact sumOver_zero R L rest
        show R.add (R.mul (f j) (if j = j then R.one else R.zero))
            (sumOver R rest (fun j' => R.mul (f j') (if j' = j then R.one else R.zero)))
            = f j
        rw [if_pos rfl, L.mul_one, hzero, add_zero_r R L]
      · have hk' : k ∈ rest := by
          rcases List.mem_cons.mp hk with h1 | h2
          · exact absurd h1.symm hjk
          · exact h2
        simp only [sumOver, if_neg hjk]
        rw [L.mul_zero, L.zero_add, ih hk' hrest]

end SumLemmas

section LehmannProof

variable {κ α : Type}

/-- chartFun applied. -/
theorem chartFun_apply [DecidableEq κ] (z : α) (W : Chart (κ × κ) α)
    (a b : κ) : chartFun z W a b = cget z W (a, b) := rfl

/-- The empty pivot list satisfies the invariant with F = A. -/
theorem inv_nil (R : SR α) (L : SRLaws R) (A : κ → κ → α) : InvP R A [] A :=
  fun i k => (add_zero_r R L (A i k)).symm

/-- One pivot preserves the left-linear invariant, using only the left
closure equation star x = 1 + x * star x. -/
theorem inv_step (R : SR α) (L : SRLaws R)
    (hstar : ∀ x, R.star x = R.add R.one (R.mul x (R.star x)))
    (A : κ → κ → α) (done : List κ) (F : κ → κ → α)
    (hF : InvP R A done F) (j0 : κ) :
    InvP R A (done ++ [j0]) (funStep R F j0) := by
  intro i k
  have hsplit : ∀ j, R.mul (A i j) (funStep R F j0 j k)
      = R.add (R.mul (A i j) (F j k))
          (R.mul (R.mul (A i j) (F j j0))
            (R.mul (R.star (F j0 j0)) (F j0 k))) := by
    intro j
    simp only [funStep]
    rw [L.left_distrib]
    congr 1
    rw [L.mul_assoc (F j j0) (R.star (F j0 j0)) (F j0 k),
      ← L.mul_assoc (A i j) (F j j0) _]
  have hmain : sumOver R done (fun j => R.mul (A i j) (funStep R F j0 j k))
      = R.add (sumOver R done (fun j => R.mul (A i j) (F j k)))
          (R.mul (sumOver R done (fun j => R.mul (A i j) (F j j0)))
            (R.mul (R.star (F j0 j0)) (F j0 k))) := by
    rw [sumOver_congr R done _ _ (fun j _ => hsplit j), sumOver_split R L]
    congr 1
    exact sumOver_factor_right R L done _ _
  have hj0 : funStep R F j0 j0 k = R.mul (R.star (F j0 j0)) (F j0 k) := by
    simp only [funStep]
    nth_rewrite 1 [← L.one_mul (F j0 k)]
    rw [← L.right_distrib, ← hstar]
  show funStep R F j0 i k
      = R.add (A i k)
          (sumOver R (done ++ [j0]) (fun j => R.mul (A i j) (funStep R F j0 j k)))
  rw [sumOver_append R L]
  have hsing : sumOver R [j0] (fun j => R.mul (A i j) (funStep R F j0 j k))
      = R.mul (A i j0) (R.mul (R.star (F j0 j0)) (F j0 k)) := by
    simp only [sumOver]
    rw [add_zero_r R L, hj0]
  rw [hsing, hmain]
  have hlhs : funStep R F j0 i k
      = R.add (R.add (A i k) (sumOver R done (fun j => R.mul (A i j) (F j k))))
          (R.add (R.mul (A i j0) (R.mul (R.star (F j0 j0)) (F j0 k)))
            (R.mul (sumOver R done (fun j => R.mul (A i j) (F j j0)))
              (R.mul (R.star (F j0 j0)) (F j0 k)))) := by
    simp only [funStep]
    rw [L.mul_assoc (F i j0) (R.star (F j0 j0)) (F j0 k), hF i k, hF i j0,
      L.right_distrib]
  rw [hlhs]
  rw [L.add_assoc, L.add_comm (R.mul (A i j0) (R.mul (R.star (F j0 j0)) (F j0 k)))
    (R.mul (sumOver R done (fun j => R.mul (A i j) (F j j0)))
      (R.mul (R.star (F j0 j0)) (F j0 k))),
    ← L.add_assoc (sumOver R done (fun j => R.mul (A i j) (F j k)))
      (R.mul (sumOver R done (fun j => R.mul (A i j) (F j j0)))
        (R.mul (R.star (F j0 j0)) (F j0 k)))
      (R.mul (A i j0) (R.mul (R.star (F j0 j0)) (F j0 k)))]

/-- Every pivot sequence preserves the left-linear invariant. -/
theorem inv_funGo (R : SR α) (L : SRLaws R)
    (hstar : ∀ x, R.star x = R.add R.one (R.mul x (R.star x)))
    (A : κ → κ → α) (pivots : List κ) :
    ∀ (done : List κ) (F : κ → κ → α), InvP R A done F →
      InvP R A (done ++ pivots) (funGo R pivots F) := by
  induction pivots with
  | nil => intro done F hF; simpa using hF
  | cons j rest ih =>
      intro done F hF
      have h1 := inv_step R L hstar A done F hF j
      have h2 := ih (done ++ [j]) (funStep R F j) h1
      simpa [List.append_assoc] using h2

/-- Reading the chart built by one Lehmann pivot at a key of N x N. -/
theorem lehmannStep_cget [DecidableEq κ] [DecidableEq α] (R : SR α)
    (N : List κ) (U : Chart (κ × κ) α) (j : κ) (i k : κ)
    (hi : i ∈ N) (hk : k ∈ N) :
    cget R.zero (lehmannStep R N U j) (i, k)
      = R.add (cget R.zero U (i, k))
          (R.mul (R.mul (cget R.zero U (i, j))
              (R.star (cget R.zero U (j, j)))) (cget R.zero U (j, k))) :=
  outerFold_cget_mem R.zero
    (fun a b => R.add (cget R.zero U (a, b))
      (R.mul (R.mul (cget R.zero U (a, j)) (R.star (cget R.zero U (j, j))))
        (cget R.zero U (j, b)))) N N [] i k hi hk

/-- funGo only looks at the entries of N x N of its argument when the pivots
come from N. -/
theorem funGo_congrN (R : SR α) (N pivots : List κ)
    (hsub : ∀ j ∈ pivots, j ∈ N) (F G : κ → κ → α)
    (hagree : ∀ a ∈ N, ∀ b ∈ N, F a b = G a b) :
    ∀ a ∈ N, ∀ b ∈ N, funGo R pivots F a b = funGo R pivots G a b := by
  induction pivots generalizing F G with
  | nil => exact hagree
  | cons j rest ih =>
      have hj : j ∈ N := hsub j (by simp)
      exact ih (fun x hx => hsub x (by simp [hx])) (funStep R F j) (funStep R G j)
        (fun a ha b hb => by
          simp only [funStep]
          rw [hagree a ha b hb, hagree a ha j hj, hagree j hj j hj,
            hagree j hj b hb])

/-- The chart-level pivot loop agrees with the function-level mirror on
N x N. -/
theorem lehmannGo_cget [DecidableEq κ] [DecidableEq α] (R : SR α)
    (N : List κ) (pivots : List κ) (hsub : ∀ j ∈ pivots, j ∈ N)
    (U : Chart (κ × κ) α) (i k : κ) (hi : i ∈ N) (hk : k ∈ N) :
    cget R.zero (lehmannGo R N pivots U) (i, k)
      = funGo R pivots (chartFun R.zero U) i k := by
  induction pivots generalizing U with
  | nil => rfl
  | cons j rest ih =>
      have hj : j ∈ N := hsub j (by simp)
      simp only [lehmannGo]
      rw [ih (fun x hx => hsub x (by simp [hx])) (lehmannStep R N U j)]
      exact funGo_congrN R N rest (fun x hx => hsub x (by simp [hx]))
        (chartFun R.zero (lehmannStep R N U j))
        (funStep R (chartFun R.zero U) j)
        (fun a ha b hb => lehmannStep_cget R N U j a b ha hb) i hi k hk

/-- The diagonal loop leaves off-diagonal entries untouched. -/
theorem diagFold_cget_ne [DecidableEq κ] [DecidableEq α] (R : SR α)
    ( is : List κ) (M : Chart (κ × κ) α) (i k : κ) (hne : i ≠ k) :
    cget R.zero ( is.foldl (fun ch a => cadd R.zero R.add ch (a, a) R.one) M)
        (i, k)
      = cget R.zero M (i, k) := by
  induction is generalizing M with
  | nil => rfl
  | cons a rest ih =>
      simp only [List.foldl_cons]
      rw [ih]
      exact cget_cadd_ne R.zero R.add M (a, a) (i, k) R.one
        (fun hc => hne (by
          have h1 : i = a := congrArg Prod.fst hc
          have h2 : k = a := congrArg Prod.snd hc
          rw [h1, h2]))

/-- The diagonal loop leaves diagonal entries outside the node list
untouched. -/
theorem diagFold_cget_notmem [DecidableEq κ] [DecidableEq α] (R : SR α)
    ( is : List κ) (M : Chart (κ × κ) α) (i : κ) (h : i ∉ is) :
    cget R.zero ( is.foldl (fun ch a => cadd R.zero R.add ch (a, a) R.one) M)
        (i, i)
      = cget R.zero M (i, i) := by
  induction is generalizing M with
  | nil => rfl
  | cons a rest ih =>
      simp only [List.foldl_cons]
      have h1 : i ∉ rest := fun hc => h (List.mem_cons_of_mem a hc)
      have h2 : i ≠ a := fun hc => h (by rw [hc]; exact List.mem_cons_self a rest)
      rw [ih _ h1]
      exact cget_cadd_ne R.zero R.add M (a, a) (i, i) R.one
        (fun hc => h2 (congrArg Prod.fst hc))

/-- The diagonal loop adds one exactly once on each diagonal entry of a
duplicate-free node list. -/
theorem diagFold_cget_mem [DecidableEq κ] [DecidableEq α] (R : SR α)
    ( is : List κ) (M : Chart (κ × κ) α) (i : κ) (hnd : is.Nodup)
    (hi : i ∈ is) :
    cget R.zero ( is.foldl (fun ch a => cadd R.zero R.add ch (a, a) R.one) M)
        (i, i)
      = R.add (cget R.zero M (i, i)) R.one := by
  induction is generalizing M with
  | nil => simp at hi
  | cons a rest ih =>
      obtain ⟨ha, hrest⟩ := List.nodup_cons.mp hnd
      simp only [List.foldl_cons]
      by_cases hia : i = a
      · subst hia
        rw [diagFold_cget_notmem R rest _ i ha]
        exact cget_cadd_self R.zero R.add M (i, i) R.one
      · rw [ih _ hrest (by
          rcases List.mem_cons.mp hi with h1 | h2
          · exact absurd h1 hia
          · exact h2)]
        rw [cget_cadd_ne R.zero R.add M (a, a) (i, i) R.one
          (fun hc => hia (congrArg Prod.fst hc))]

/-- Reading the final Lehmann chart: the function-level result, plus one on
the diagonal. -/
theorem lehmann_cget [DecidableEq κ] [DecidableEq α] (R : SR α)
    (N : List κ) (hnd : N.Nodup) (W : Chart (κ × κ) α) (i k : κ)
    (hi : i ∈ N) (hk : k ∈ N) :
    cget R.zero (lehmann R N W) (i, k)
      = if i = k then R.add (funGo R N (chartFun R.zero W) i k) R.one
        else funGo R N (chartFun R.zero W) i k := by
  unfold lehmann
  by_cases hik : i = k
  · subst hik
    rw [if_pos rfl, diagFold_cget_mem R N _ i hnd hi,
      lehmannGo_cget R N N (fun x hx => hx) W i i hi hi]
  · rw [if_neg hik, diagFold_cget_ne R N _ i k hik,
      lehmannGo_cget R N N (fun x hx => hx) W i k hi hk]

end LehmannProof

/-- C4 amended: over a semiring whose star satisfies the left closure equation
star x = 1 + x * star x, the chart V returned by the Lehmann procedure
satisfies the left fixpoint equation
V[i, k] = (1 if i = k else 0) + sum over j of W[i, j] * V[j, k]
(the claim had the sum as V[i, j] * W[j, k], which fails; see the
counterexample). -/
theorem C4_lehmann_fixpoint {κ α : Type} [DecidableEq κ] [DecidableEq α]
    (R : SR α) (L : SRLaws R)
    (hstar : ∀ x, R.star x = R.add R.one (R.mul x (R.star x)))
    (N : List κ) (hnd : N.Nodup) (W : Chart (κ × κ) α) (i k : κ)
    (hi : i ∈ N) (hk : k ∈ N) :
    cget R.zero (lehmann R N W) (i, k)
      = R.add (if i = k then R.one else R.zero)
          (sumOver R N (fun j =>
            R.mul (cget R.zero W (i, j))
              (cget R.zero (lehmann R N W) (j, k)))) := by
  have hInv : InvP R (chartFun R.zero W) N (funGo R N (chartFun R.zero W)) := by
    have h0 := inv_nil R L (chartFun R.zero W)
    have h1 := inv_funGo R L hstar (chartFun R.zero W) N [] (chartFun R.zero W) h0
    simpa using h1
  have hv : ∀ a b, a ∈ N → b ∈ N → cget R.zero (lehmann R N W) (a, b)
      = if a = b then R.add (funGo R N (chartFun R.zero W) a b) R.one
        else funGo R N (chartFun R.zero W) a b :=
    fun a b ha hb => lehmann_cget R N hnd W a b ha hb
  have hsum : sumOver R N (fun j =>
        R.mul (cget R.zero W (i, j)) (cget R.zero (lehmann R N W) (j, k)))
      = R.add (sumOver R N (fun j =>
            R.mul (chartFun R.zero W i j) (funGo R N (chartFun R.zero W) j k)))
          (chartFun R.zero W i k) := by
    have h1 : ∀ j ∈ N, R.mul (cget R.zero W (i, j))
          (cget R.zero (lehmann R N W) (j, k))
        = R.add (R.mul (chartFun R.zero W i j) (funGo R N (chartFun R.zero W) j k))
            (R.mul (chartFun R.zero W i j) (if j = k then R.one else R.zero)) := by
      intro j hj
      rw [hv j k hj hk]
      by_cases hjk : j = k
      · subst hjk
        rw [if_pos rfl, if_pos rfl, chartFun_apply, L.left_distrib, L.mul_one]
      · rw [if_neg hjk, if_neg hjk, chartFun_apply, L.mul_zero, add_zero_r R L]
    rw [sumOver_congr R N _ _ h1, sumOver_split R L,
      sumOver_delta R L N k (chartFun R.zero W i) hk hnd]
  rw [hv i k hi hk, hsum]
  have hIk := hInv i k
  by_cases hik : i = k
  · subst hik
    rw [if_pos rfl, if_pos rfl]
    rw [L.add_comm (sumOver R N fun j =>
        R.mul (chartFun R.zero W i j) (funGo R N (chartFun R.zero W) j i))
      (chartFun R.zero W i i), ← hIk, L.add_comm]
  · rw [if_neg hik, if_neg hik]
    rw [L.add_comm (sumOver R N fun j =>
        R.mul (chartFun R.zero W i j) (funGo R N (chartFun R.zero W) j k))
      (chartFun R.zero W i k), ← hIk, L.zero_add]

/-- The SRC operations satisfy the semiring laws (inherited from boolean
matrix algebra on the closed span). -/
theorem srcLaws : SRLaws srcSR := by
  refine ⟨?_, ?_, ?_, ?_, ?_, ?_, ?_, ?_, ?_, ?_⟩
  · intro a b
    simp only [srcSR, SRC.plus, SRC.mk.injEq]
    refine ⟨?_, ?_, ?_, ?_, ?_⟩ <;> exact Bool.or_comm _ _
  · intro a b c
    simp only [srcSR, SRC.plus, SRC.mk.injEq]
    refine ⟨?_, ?_, ?_, ?_, ?_⟩ <;> exact Bool.or_assoc _ _ _
  · intro a
    cases a
    simp [srcSR, SRC.plus, SRC.null]
  · intro a b c
    simp only [srcSR, SRC.times, SRC.mk.injEq]
    refine ⟨?_, ?_, ?_, ?_, ?_⟩ <;>
      simp [Bool.and_or_distrib_left, Bool.and_or_distrib_right,
        Bool.and_assoc, Bool.or_assoc, Bool.or_comm, Bool.or_left_comm]
  · intro a
    cases a
    simp [srcSR, SRC.times, SRC.unit]
  · intro a
    cases a
    simp [srcSR, SRC.times, SRC.unit]
  · intro a
    cases a
    simp [srcSR, SRC.times, SRC.null]
  · intro a
    cases a
    simp [srcSR, SRC.times, SRC.null]
  · intro a b c
    simp only [srcSR, SRC.times, SRC.plus, SRC.mk.injEq]
    refine ⟨?_, ?_, ?_, ?_, ?_⟩ <;>
      simp [Bool.and_or_distrib_left, Bool.and_or_distrib_right,
        Bool.and_assoc, Bool.or_assoc, Bool.or_comm, Bool.or_left_comm]
  · intro a b c
    simp only [srcSR, SRC.times, SRC.plus, SRC.mk.injEq]
    refine ⟨?_, ?_, ?_, ?_, ?_⟩ <;>
      simp [Bool.and_or_distrib_left, Bool.and_or_distrib_right,
        Bool.and_assoc, Bool.or_assoc, Bool.or_comm, Bool.or_left_comm]

/-- C4 counterexample: the SRC semiring satisfies all semiring laws and the
left closure equation for every element, yet on the one-node chart carrying
srcW the Lehmann output V violates the fixpoint equation exactly as the claim
orients it, V[i, k] = delta + sum over j of V[i, j] * W[j, k]. -/
theorem C4_counterexample :
    SRLaws srcSR ∧
      (∀ x, srcSR.star x = srcSR.add srcSR.one (srcSR.mul x (srcSR.star x))) ∧
      cget srcSR.zero (lehmann srcSR [0] c4W) ((0 : Nat), (0 : Nat))
        ≠ srcSR.add srcSR.one
            (sumOver srcSR [0] (fun j =>
              srcSR.mul (cget srcSR.zero (lehmann srcSR [0] c4W) (0, j))
                (cget srcSR.zero c4W (j, 0)))) := by
  refine ⟨srcLaws, ?_, ?_⟩
  · decide
  · decide

/-- Rules in which every terminal occurrence is the sole body symbol. -/
def GoodRules {α : Type} (V : List Sym) (rules : List (Rule α)) : Prop :=
  ∀ r ∈ rules, ∀ y ∈ r.body, y ∈ V → r.body = [y]

/-- The preterminal memo stores only generated heads. -/
def GoodMemo (memo : List (Sym × Sym)) : Prop :=
  ∀ p ∈ memo, ∃ i, p.2 = Sym.gen i

/-- A value found in the memo is one of its stored values. -/
theorem mfind_mem (memo : List (Sym × Sym)) (x h : Sym)
    (hf : mfind memo x = some h) : ∃ k, (k, h) ∈ memo := by
  induction memo with
  | nil => simp [mfind] at hf
  | cons p rest ih =>
      obtain ⟨k0, v0⟩ := p
      by_cases h0 : k0 = x
      · simp only [mfind, if_pos h0] at hf
        have hv : v0 = h := Option.some.inj hf
        exact ⟨k0, by rw [← hv]; exact List.mem_cons_self _ _⟩
      · simp only [mfind, if_neg h0] at hf
        obtain ⟨k, hk⟩ := ih hf
        exact ⟨k, List.mem_cons_of_mem _ hk⟩

/-- Appending one rule whose body is a single symbol keeps GoodRules. -/
theorem goodRules_add_single {α : Type} [DecidableEq α] (R : SR α)
    (V : List Sym) (new : CFG α) (w : α) (head y : Sym)
    (hg : GoodRules V new.rules) :
    GoodRules V (CFG.add R new w head [y]).rules := by
  intro r hr y' hy' hV
  rw [add_rules] at hr
  rcases List.mem_append.mp hr with h1 | h2
  · exact hg r h1 y' hy' hV
  · by_cases hz : w = R.zero
    · simp [hz] at h2
    · have : r = ⟨w, head, [y]⟩ := by simpa [hz] using h2
      subst this
      simp only at hy'
      simp only [List.mem_singleton] at hy'
      simp [hy']

/-- Appending one rule whose body avoids the vocabulary keeps GoodRules. -/
theorem goodRules_add_clean {α : Type} [DecidableEq α] (R : SR α)
    (V : List Sym) (new : CFG α) (w : α) (head : Sym) (body : List Sym)
    (hg : GoodRules V new.rules) (hb : ∀ y ∈ body, y ∉ V) :
    GoodRules V (CFG.add R new w head body).rules := by
  intro r hr y' hy' hV
  rw [add_rules] at hr
  rcases List.mem_append.mp hr with h1 | h2
  · exact hg r h1 y' hy' hV
  · by_cases hz : w = R.zero
    · simp [hz] at h2
    · have : r = ⟨w, head, body⟩ := by simpa [hz] using h2
      subst this
      exact absurd hV (hb y' hy')

/-- sepTermBody preserves GoodRules and GoodMemo and returns a substituted
body that avoids the vocabulary. -/
theorem sepTermBody_spec {α : Type} [DecidableEq α] (R : SR α) (g : CFG α)
    (hgenV : ∀ i, Sym.gen i ∉ g.V) :
    ∀ (body : List Sym) (new : CFG α) (memo : List (Sym × Sym)) (c : Nat),
      GoodRules g.V new.rules → GoodMemo memo →
      GoodRules g.V (sepTermBody R g body new memo c).2.1.rules ∧
        GoodMemo (sepTermBody R g body new memo c).2.2.1 ∧
        ∀ y ∈ (sepTermBody R g body new memo c).1, y ∉ g.V := by
  intro body
  induction body with
  | nil =>
      intro new memo c hg hm
      exact ⟨hg, hm, by simp [sepTermBody]⟩
  | cons y rest ih =>
      intro new memo c hg hm
      by_cases hy : y ∈ g.V
      · cases hfind : mfind memo y with
        | some h =>
            have hhg : ∃ i, h = Sym.gen i := by
              obtain ⟨k, hk⟩ := mfind_mem memo y h hfind
              exact hm (k, h) hk
            obtain ⟨i, hi⟩ := hhg
            have := ih new memo c hg hm
            simp only [sepTermBody, if_pos hy, hfind]
            refine ⟨this.1, this.2.1, ?_⟩
            intro y' hy'
            rcases List.mem_cons.mp hy' with h1 | h2
            · subst h1
              rw [hi]
              exact hgenV i
            · exact this.2.2 y' h2
        | none =>
            have hg1 : GoodRules g.V
                (CFG.add R new R.one (Sym.gen c) [y]).rules :=
              goodRules_add_single R g.V new R.one (Sym.gen c) y hg
            have hm1 : GoodMemo (memo ++ [(y, Sym.gen c)]) := by
              intro p hp
              rcases List.mem_append.mp hp with h1 | h2
              · exact hm p h1
              · simp only [List.mem_singleton] at h2
                exact ⟨c, by rw [h2]⟩
            have := ih (CFG.add R new R.one (Sym.gen c) [y])
              (memo ++ [(y, Sym.gen c)]) (c + 1) hg1 hm1
            simp only [sepTermBody, if_pos hy, hfind]
            refine ⟨this.1, this.2.1, ?_⟩
            intro y' hy'
            rcases List.mem_cons.mp hy' with h1 | h2
            · subst h1
              exact hgenV c
            · exact this.2.2 y' h2
      · have := ih new memo c hg hm
        simp only [sepTermBody, if_neg hy]
        refine ⟨this.1, this.2.1, ?_⟩
        intro y' hy'
        rcases List.mem_cons.mp hy' with h1 | h2
        · subst h1
          exact hy
        · exact this.2.2 y' h2

/-- One step of separate_terminals preserves GoodRules and GoodMemo. -/
theorem sepTermStep_spec {α : Type} [DecidableEq α] (R : SR α) (g : CFG α)
    (hgenV : ∀ i, Sym.gen i ∉ g.V) (st : CFG α × List (Sym × Sym) × Nat)
    (r : Rule α) (hg : GoodRules g.V st.1.rules) (hm : GoodMemo st.2.1) :
    GoodRules g.V (sepTermStep R g st r).1.rules ∧
      GoodMemo (sepTermStep R g st r).2.1 := by
  unfold sepTermStep
  split
  · next y hb =>
      by_cases hy : y ∈ g.V
      · simp only [if_pos hy]
        constructor
        · rw [hb]
          exact goodRules_add_single R g.V st.1 r.w r.head y hg
        · exact hm
      · simp only [if_neg hy]
        have hspec := sepTermBody_spec R g hgenV r.body st.1 st.2.1 st.2.2 hg hm
        exact ⟨goodRules_add_clean R g.V _ r.w r.head _ hspec.1 hspec.2.2,
          hspec.2.1⟩
  · next hb =>
      have hspec := sepTermBody_spec R g hgenV r.body st.1 st.2.1 st.2.2 hg hm
      exact ⟨goodRules_add_clean R g.V _ r.w r.head _ hspec.1 hspec.2.2,
        hspec.2.1⟩

/-- The separate_terminals fold preserves GoodRules and GoodMemo. -/
theorem sepTermFold_spec {α : Type} [DecidableEq α] (R : SR α) (g : CFG α)
    (hgenV : ∀ i, Sym.gen i ∉ g.V) :
    ∀ (rs : List (Rule α)) (st : CFG α × List (Sym × Sym) × Nat),
      GoodRules g.V st.1.rules → GoodMemo st.2.1 →
      GoodRules g.V (rs.foldl (sepTermStep R g) st).1.rules := by
  intro rs
  induction rs with
  | nil => intro st hg _; exact hg
  | cons r rest ih =>
      intro st hg hm
      have := sepTermStep_spec R g hgenV st r hg hm
      exact ih (sepTermStep R g st r) this.1 this.2

/-- C5 amended: in separate_terminals(g) every occurrence of a terminal in a
rule body is as the sole body symbol of a preterminal rule; the weight of the
rule need not be one, since original preterminal rules are copied with their
own weight (only the invented preterminal rules carry weight one). -/
theorem C5_separate_terminals_sole {α : Type} [DecidableEq α] (R : SR α)
    (g : CFG α) (c : Nat) (hgenV : ∀ i, Sym.gen i ∉ g.V)
    (hone : R.one ≠ R.zero) (r : Rule α)
    (hr : r ∈ (CFG.separate_terminals R g c).1.rules) (y : Sym)
    (hy : y ∈ r.body) (hterm : y ∈ g.V) : r.body = [y] := by
  have := sepTermFold_spec R g hgenV g.rules (g.spawn, ([], c))
    (by intro r hr; simp [CFG.spawn] at hr) (by intro p hp; simp at hp)
  exact this r hr y hy hterm

/-- Grammar with a weight-2 preterminal rule over the counting semiring. -/
def c5g : CFG Nat :=
  { S := Sym.base "S", V := [Sym.base "a"], N := [Sym.base "S", Sym.base "X"],
    rules := [⟨2, Sym.base "X", [Sym.base "a"]⟩] }

/-- C5 counterexample: separate_terminals keeps the original preterminal rule
with weight 2, so the terminal a occurs in a preterminal rule whose weight is
not the semiring one, refuting the unit-weight part of the claim. -/
theorem C5_counterexample :
    (CFG.separate_terminals natSR c5g 0).1.rules
        = [⟨2, Sym.base "X", [Sym.base "a"]⟩] ∧
      Sym.base "a" ∈ c5g.V ∧ (2 : Nat) ≠ natSR.one := by
  refine ⟨?_, ?_, ?_⟩ <;> decide

/-- Grammar with a terminal inside a binary body, to exercise substitution. -/
def c5h : CFG Nat :=
  { S := Sym.base "S", V := [Sym.base "a"], N := [Sym.base "S"],
    rules := [⟨2, Sym.base "S", [Sym.base "a", Sym.base "a"]⟩] }

/-- C5 amended, witnessed on the invented preterminal rule of a grammar whose
terminal occurs inside a binary body. -/
theorem C5_separate_terminals_sole_witness :
    (⟨1, Sym.gen 0, [Sym.base "a"]⟩ : Rule Nat).body = [Sym.base "a"] :=
  C5_separate_terminals_sole natSR c5h 0
    (fun i h => by simp [c5h] at h) (by decide)
    ⟨1, Sym.gen 0, [Sym.base "a"]⟩ (by decide) (Sym.base "a") (by decide)
    (by decide)

/-- Generic foldl invariant preservation. -/
theorem foldl_preserve {β γ : Type} (P : γ → Prop) (f : γ → β → γ)
    (l : List β) (hstep : ∀ x b, P x → P (f x b)) :
    ∀ x, P x → P (l.foldl f x) := by
  induction l with
  | nil => intro x hx; exact hx
  | cons b rest ih =>
      intro x hx
      exact ih (f x b) (hstep x b hx)

/-- Appending one rule changes the nullary count by one exactly when the new
rule is nullary. -/
theorem countNullary_append {α : Type} (rules : List (Rule α)) (r : Rule α) :
    countNullary (rules ++ [r])
      = countNullary rules + (if r.body = [] then 1 else 0) := by
  by_cases hb : r.body = []
  · simp [countNullary, List.filter_append, hb]
  · simp [countNullary, List.filter_append, hb]

/-- The invariant of push_null_weights without recovery: start symbol fixed,
every nullary rule has the start as head, and at most one nullary rule. -/
def PushInv {α : Type} (S0 : Sym) (rc : CFG α) : Prop :=
  rc.S = S0 ∧ (∀ r ∈ rc.rules, r.body = [] → r.head = S0) ∧
    countNullary rc.rules ≤ 1

/-- Adding a rule with a nonempty body preserves the push invariant. -/
theorem pushInv_add {α : Type} [DecidableEq α] (R : SR α) (S0 : Sym)
    (rc : CFG α) (w : α) (head : Sym) (body : List Sym) (hb : body ≠ [])
    (h : PushInv S0 rc) : PushInv S0 (CFG.add R rc w head body) := by
  obtain ⟨hS, hhead, hcount⟩ := h
  refine ⟨by rw [add_S]; exact hS, ?_, ?_⟩
  · intro r hr hrb
    rw [add_rules] at hr
    rcases List.mem_append.mp hr with h1 | h2
    · exact hhead r h1 hrb
    · by_cases hz : w = R.zero
      · simp [hz] at h2
      · have : r = ⟨w, head, body⟩ := by simpa [hz] using h2
        subst this
        exact absurd hrb hb
  · rw [add_rules]
    by_cases hz : w = R.zero
    · simpa [hz] using hcount
    · simp only [hz, if_false]
      rw [countNullary_append, if_neg hb]
      simpa using hcount

/-- push_null_weights without recovery: every nullary rule of the result has
the start symbol as head, and there is at most one such rule. -/
theorem pushNull_nullary {α : Type} [DecidableEq α] (R : SR α) (g : CFG α)
    (null : Chart Sym α) (rename : Sym → Sym) (g3 : CFG α)
    (h : pushNullWeights R g null false rename = some g3) :
    PushInv g.S g3 := by
  unfold pushNullWeights at h
  by_cases hassert : g.rules.any (fun r => decide (g.S ∈ r.body))
  · simp [hassert] at h
  · simp only [hassert, Bool.false_eq_true, if_false, Option.some.injEq] at h
    subst h
    have h0 : PushInv (α := α) g.S
        (CFG.add R g.spawn (cget R.zero null g.S) g.S []) := by
      refine ⟨by rw [add_S]; rfl, ?_, ?_⟩
      · intro r hr _
        rw [add_rules] at hr
        simp only [CFG.spawn, List.nil_append] at hr
        by_cases hz : cget R.zero null g.S = R.zero
        · simp [hz] at hr
        · have : r = ⟨cget R.zero null g.S, g.S, []⟩ := by simpa [hz] using hr
          rw [this]
      · rw [add_rules]
        simp only [CFG.spawn, List.nil_append]
        by_cases hz : cget R.zero null g.S = R.zero
        · simp [hz, countNullary]
        · simp [hz, countNullary]
    refine foldl_preserve (PushInv g.S) _ g.rules ?_ _ h0
    intro rc r hrc
    by_cases hb : r.body = []
    · simpa [hb] using hrc
    · simp only [hb, if_false]
      refine foldl_preserve (PushInv g.S) _ (masks r.body.length) ?_ rc hrc
      intro rc' B hrc'
      by_cases hlen : 0 < (maskBody (pushRename R g null rename) r.body B).length
      · simp only [hlen, if_true]
        refine pushInv_add R g.S rc' _ _ _ ?_ hrc'
        intro hc
        rw [hc] at hlen
        simp at hlen
      · simpa [hlen] using hrc'

/-- C3 amended: with recovery disabled, every nullary rule of
nullaryremove(g) has the start symbol of the result as its head, and there is
at most one nullary rule (there is none at all when the null weight of the
start is zero, since zero-weight adds are dropped). -/
theorem C3_nullaryremove_nullary {α : Type} [DecidableEq α] (R : SR α)
    (g : CFG α) (c : Nat) (binFlag : Bool) (rename : Sym → Sym)
    (g' : CFG α) (c' : Nat) (r : Rule α)
    (h : CFG.nullaryremove R g c binFlag false rename = some (g', c'))
    (hr : r ∈ g'.rules) (hnull : r.body = []) :
    r.head = g'.S ∧ countNullary g'.rules ≤ 1 := by
  simp only [CFG.nullaryremove] at h
  split at h
  · exact absurd h (by simp)
  · next g3 heq =>
      simp only [Option.some.injEq, Prod.mk.injEq] at h
      obtain ⟨hg, _⟩ := h
      obtain ⟨hS, hhead, hcount⟩ := pushNull_nullary R _ _ rename g3 heq
      rw [← hg] at hr ⊢
      rw [hS]
      exact ⟨hhead r hr hnull, hcount⟩

/-- Grammar with a nullable nonterminal A, over the Boolean semiring. -/
def c3g : CFG Bool :=
  { S := Sym.base "S", V := [Sym.base "a"],
    N := [Sym.base "S", Sym.base "A"],
    rules := [⟨true, Sym.base "S", [Sym.base "A"]⟩,
              ⟨true, Sym.base "A", []⟩,
              ⟨true, Sym.base "A", [Sym.base "a"]⟩] }

/-- C3 counterexample: with recovery enabled, nullaryremove returns a grammar
with two nullary rules, one of them at the non-start head A, refuting both
the uniqueness and the head part of the claim (which quantifies over every
setting of the keyword arguments). -/
theorem C3_counterexample :
    (CFG.nullaryremove boolSR c3g 0 true true Sym.dollar).map
        (fun p => (countNullary p.1.rules,
          decide ((⟨true, Sym.base "A", []⟩ : Rule Bool) ∈ p.1.rules ∧
            Sym.base "A" ≠ p.1.S)))
      = some (2, true) := by
  decide

/-- The value of nullaryremove on c3g with recovery disabled. -/
def c3res : CFG Bool :=
  { S := Sym.base "S", V := [Sym.base "a"],
    N := [Sym.base "S", Sym.dollar (Sym.base "A")],
    rules := [⟨true, Sym.base "S", []⟩,
              ⟨true, Sym.dollar (Sym.base "A"), [Sym.base "a"]⟩,
              ⟨true, Sym.base "S", [Sym.dollar (Sym.base "A")]⟩] }

/-- C3 amended, witnessed on the sample grammar: its single nullary rule has
the start symbol as head. -/
theorem C3_nullaryremove_nullary_witness :
    (⟨true, Sym.base "S", ([] : List Sym)⟩ : Rule Bool).head = c3res.S ∧
      countNullary c3res.rules ≤ 1 :=
  C3_nullaryremove_nullary boolSR c3g 0 true Sym.dollar c3res 0
    ⟨true, Sym.base "S", []⟩ (by decide) (by decide) rfl

/-- elimStep aborts exactly on elimBad rules. -/
theorem elimStep_none_iff {α : Type} [DecidableEq α] (R : SR α)
    (W : Chart (Sym × Sym) α) (v : Chart Sym α) (r : Rule α) :
    elimStep R W v r = none ↔ elimBad r = true := by
  rcases hb : r.body with _ | ⟨y, _ | ⟨z, t⟩⟩
  · cases hs : r.head.isSlash <;> simp [elimStep, elimBad, hb, hs]
  · cases hs : r.head.isSlash <;> cases hy : y.isSlash <;>
      simp [elimStep, elimBad, hb, hs, hy]
  · simp [elimStep, elimBad, hb]

/-- The accumulation loop aborts exactly when some rule is elimBad. -/
theorem elimLoop_none_iff {α : Type} [DecidableEq α] (R : SR α) :
    ∀ (rs : List (Rule α)) (W : Chart (Sym × Sym) α) (v : Chart Sym α),
      elimLoop R rs W v = none ↔ ∃ r ∈ rs, elimBad r = true := by
  intro rs
  induction rs with
  | nil => intro W v; simp [elimLoop]
  | cons r rest ih =>
      intro W v
      cases hstep : elimStep R W v r with
      | none =>
          have hbad := (elimStep_none_iff R W v r).mp hstep
          simp only [elimLoop, hstep]
          constructor
          · intro _
            exact ⟨r, List.mem_cons_self r rest, hbad⟩
          · intro _
            trivial
      | some p =>
          have hnotbad : elimBad r ≠ true := fun hc =>
            by rw [(elimStep_none_iff R W v r).mpr hc] at hstep; exact Option.noConfusion hstep
          simp only [elimLoop, hstep]
          rw [ih p.1 p.2]
          constructor
          · intro ⟨r', hr', hb'⟩
            exact ⟨r', List.mem_cons_of_mem r hr', hb'⟩
          · intro ⟨r', hr', hb'⟩
            rcases List.mem_cons.mp hr' with h1 | h2
            · exact absurd (h1 ▸ hb') hnotbad
            · exact ⟨r', h2, hb'⟩

/-- push_null_weights aborts exactly when the start occurs in some body. -/
theorem pushNullWeights_none_iff {α : Type} [DecidableEq α] (R : SR α)
    (g : CFG α) (null : Chart Sym α) (recovery : Bool) (rename : Sym → Sym) :
    pushNullWeights R g null recovery rename = none ↔
      ∃ r ∈ g.rules, g.S ∈ r.body := by
  unfold pushNullWeights
  by_cases hassert : g.rules.any (fun r => decide (g.S ∈ r.body))
  · simp only [hassert, if_true, true_iff]
    simpa using hassert
  · simp only [hassert, Bool.false_eq_true, if_false]
    simp only [List.any_eq_true, decide_eq_true_eq] at hassert
    simp [hassert]

/-- C9 amended: elim_nullary_slash aborts with an assertion failure exactly
when its binarized input contains a nullary rule at a non-Slash head, OR a
unary rule with a Slash head whose body symbol is not a Slash, OR an
occurrence of the start symbol in some rule body (the push_null_weights
precondition); when none of these hold it completes and returns the
rule-replication step applied to the computed null weights. -/
theorem C9_elim_nullary_slash_aborts {α : Type} [DecidableEq α] (R : SR α)
    (g : CFG α) (c : Nat) (binFlag : Bool) :
    (elimNullarySlash R g c binFlag = none ↔
      ((∃ r ∈ (binIf R g c binFlag).1.rules, elimBad r = true) ∨
        (∃ r ∈ (binIf R g c binFlag).1.rules, (binIf R g c binFlag).1.S ∈ r.body))) ∧
      (∀ g2 c2, elimNullarySlash R g c binFlag = some (g2, c2) →
        ∃ W v, elimLoop R (binIf R g c binFlag).1.rules [] [] = some (W, v) ∧
          pushNullWeights R (binIf R g c binFlag).1
              (elimNull R (binIf R g c binFlag).1.N W v) false Sym.dollar
            = some g2 ∧
          c2 = (binIf R g c binFlag).2) := by
  cases hloop : elimLoop R (binIf R g c binFlag).1.rules [] [] with
  | none =>
      have hbad := (elimLoop_none_iff R _ [] []).mp hloop
      constructor
      · simp only [elimNullarySlash, hloop]
        exact ⟨fun _ => Or.inl hbad, fun _ => trivial⟩
      · intro g2 c2 hsome
        rw [elimNullarySlash] at hsome
        simp only [hloop] at hsome
        exact Option.noConfusion hsome
  | some p =>
      have hnotbad : ¬∃ r ∈ (binIf R g c binFlag).1.rules, elimBad r = true :=
        fun hc => by
          rw [(elimLoop_none_iff R _ [] []).mpr hc] at hloop
          exact Option.noConfusion hloop
      constructor
      · simp only [elimNullarySlash, hloop]
        rw [Option.map_eq_none']
        rw [pushNullWeights_none_iff]
        constructor
        · intro h
          exact Or.inr h
        · intro h
          rcases h with h | h
          · exact absurd h hnotbad
          · exact h
      · intro g2 c2 hsome
        obtain ⟨W0, v0⟩ := p
        rw [elimNullarySlash] at hsome
        simp only [hloop] at hsome
        rw [Option.map_eq_some'] at hsome
        obtain ⟨g2', hpush, heq⟩ := hsome
        have h1 : g2' = g2 := congrArg Prod.fst heq
        have h2 : (binIf R g c binFlag).2 = c2 := congrArg Prod.snd heq
        refine ⟨W0, v0, rfl, ?_, h2.symm⟩
        rw [← h1]
        exact hpush

/-- A grammar whose single rule is a unary rule with a Slash head and a
Frozen body symbol (as produced by GLCT recovery rules when the parent
grammar itself contains Slash nonterminals). -/
def c9g : CFG Bool :=
  { S := Sym.base "S", V := [],
    N := [Sym.base "S", Sym.slash (Sym.base "A") (Sym.base "A") 0],
    rules := [⟨true, Sym.slash (Sym.base "A") (Sym.base "A") 0,
      [Sym.frozen (Sym.slash (Sym.base "A") (Sym.base "A") 0) 0]⟩] }

/-- C9 counterexample: this grammar contains no nullary rule at all - so by
the claim elim_nullary_slash would complete - yet the inner assertion on the
unary Slash-headed rule fires and the call aborts. -/
theorem C9_counterexample :
    countNullary (binIf boolSR c9g 0 true).1.rules = 0 ∧
      elimNullarySlash boolSR c9g 0 true = none := by
  constructor <;> decide

/-- Generic foldl invariant preservation with membership of the step input. -/
theorem foldl_preserve_mem {β γ : Type} (P : γ → Prop) (f : γ → β → γ)
    (l : List β) (hstep : ∀ x b, b ∈ l → P x → P (f x b)) :
    ∀ x, P x → P (l.foldl f x) := by
  induction l with
  | nil => intro x hx; exact hx
  | cons b rest ih =>
      intro x hx
      exact ih (fun x' b' hb' hx' => hstep x' b' (List.mem_cons_of_mem b hb') hx')
        (f x b) (hstep x b (List.mem_cons_self b rest) hx)

/-- Adding a rule preserves a rule property when either the weight is zero
(the rule is dropped) or the property holds of the new rule. -/
theorem rulesP_add {α : Type} [DecidableEq α] (R : SR α) (P : Rule α → Prop)
    (g : CFG α) (w : α) (head : Sym) (body : List Sym)
    (hP : w = R.zero ∨ P ⟨w, head, body⟩) (hg : RulesP P g) :
    RulesP P (CFG.add R g w head body) := by
  intro r hr
  rw [add_rules] at hr
  rcases List.mem_append.mp hr with h1 | h2
  · exact hg r h1
  · rcases hP with hz | hp
    · simp [hz] at h2
    · by_cases hz : w = R.zero
      · simp [hz] at h2
      · have : r = ⟨w, head, body⟩ := by simpa [hz] using h2
        rw [this]
        exact hp

/-- If no entry carries the key, the chart reads the default there. -/
theorem cget_of_not_key {κ α : Type} [DecidableEq κ] (z : α) (ch : Chart κ α)
    (x : κ) (h : ∀ p ∈ ch, p.1 ≠ x) : cget z ch x = z := by
  induction ch with
  | nil => rfl
  | cons p rest ih =>
      obtain ⟨k0, v0⟩ := p
      have hk : k0 ≠ x := h (k0, v0) (List.mem_cons_self _ _)
      simpa [cget, hk] using ih (fun q hq => h q (List.mem_cons_of_mem _ hq))

/-- All keys of a chart satisfy a predicate. -/
def KeysP {κ α : Type} (D : κ → Prop) (ch : Chart κ α) : Prop :=
  ∀ p ∈ ch, D p.1

theorem keysP_cremove {κ α : Type} [DecidableEq κ] (D : κ → Prop)
    (ch : Chart κ α) (k : κ) (h : KeysP D ch) : KeysP D (cremove ch k) := by
  induction ch with
  | nil => exact h
  | cons p rest ih =>
      obtain ⟨k0, v0⟩ := p
      intro q hq
      by_cases h0 : k0 = k
      · simp only [cremove, if_pos h0] at hq
        exact ih (fun q' hq' => h q' (List.mem_cons_of_mem _ hq')) q hq
      · simp only [cremove, if_neg h0] at hq
        rcases List.mem_cons.mp hq with h1 | h2
        · rw [h1]
          exact h (k0, v0) (List.mem_cons_self _ _)
        · exact ih (fun q' hq' => h q' (List.mem_cons_of_mem _ hq')) q h2

theorem keysP_cupdate {κ α : Type} [DecidableEq κ] (D : κ → Prop)
    (ch : Chart κ α) (k : κ) (v : α) (h : KeysP D ch) (hk : D k) :
    KeysP D (cupdate ch k v) := by
  induction ch with
  | nil => exact h
  | cons p rest ih =>
      obtain ⟨k0, v0⟩ := p
      intro q hq
      by_cases h0 : k0 = k
      · simp only [cupdate, if_pos h0] at hq
        rcases List.mem_cons.mp hq with h1 | h2
        · rw [h1]; exact hk
        · exact ih (fun q' hq' => h q' (List.mem_cons_of_mem _ hq')) q h2
      · simp only [cupdate, if_neg h0] at hq
        rcases List.mem_cons.mp hq with h1 | h2
        · rw [h1]
          exact h (k0, v0) (List.mem_cons_self _ _)
        · exact ih (fun q' hq' => h q' (List.mem_cons_of_mem _ hq')) q h2

theorem keysP_cset {κ α : Type} [DecidableEq κ] [DecidableEq α] (D : κ → Prop)
    (z : α) (ch : Chart κ α) (k : κ) (v : α) (h : KeysP D ch) (hk : D k) :
    KeysP D (cset z ch k v) := by
  unfold cset
  by_cases hz : v = z
  · simp only [if_pos hz]
    exact keysP_cremove D ch k h
  · simp only [if_neg hz]
    by_cases hh : chas ch k
    · simp only [hh, if_true]
      exact keysP_cupdate D ch k v h hk
    · simp only [hh, Bool.false_eq_true, if_false]
      intro q hq
      rcases List.mem_append.mp hq with h1 | h2
      · exact h q h1
      · simp only [List.mem_singleton] at h2
        rw [h2]
        exact hk

theorem keysP_cadd {κ α : Type} [DecidableEq κ] [DecidableEq α] (D : κ → Prop)
    (z : α) (plus : α → α → α) (ch : Chart κ α) (k : κ) (v : α)
    (h : KeysP D ch) (hk : D k) : KeysP D (cadd z plus ch k v) :=
  keysP_cset D z ch k _ h hk

theorem keysP_dropLast {κ α : Type} (D : κ → Prop) (ch : Chart κ α)
    (h : KeysP D ch) : KeysP D ch.dropLast :=
  fun p hp => h p (List.dropLast_sublist ch |>.mem hp)

/-- The last element of a list is a member. -/
theorem getLast?_mem {β : Type} (l : List β) (x : β) (h : l.getLast? = some x) :
    x ∈ l := by
  induction l with
  | nil => simp at h
  | cons b rest ih =>
      cases rest with
      | nil =>
          simp only [List.getLast?_singleton, Option.some.injEq] at h
          rw [h]
          exact List.mem_cons_self _ _
      | cons b' rest' =>
          rw [List.getLast?_cons_cons] at h
          exact List.mem_cons_of_mem b (ih h)

/-- addN preserves duplicate-freeness. -/
theorem addN_nodup (N : List Sym) (x : Sym) (h : N.Nodup) :
    (addN N x).Nodup := by
  unfold addN
  by_cases hx : x ∈ N
  · simpa [hx] using h
  · simp only [hx, if_false]
    simpa [List.nodup_append] using ⟨h, hx⟩

/-- addN preserves membership. -/
theorem mem_addN_of_mem (N : List Sym) (x y : Sym) (h : y ∈ N) :
    y ∈ addN N x := by
  unfold addN
  by_cases hx : x ∈ N
  · simpa [hx] using h
  · simp [hx, h]

/-- Well-formed nonterminal set: no duplicates and the start is a member. -/
def NOk {α : Type} (g : CFG α) : Prop := g.N.Nodup ∧ g.S ∈ g.N

theorem nok_add {α : Type} [DecidableEq α] (R : SR α) (g : CFG α) (w : α)
    (head : Sym) (body : List Sym) (h : NOk g) :
    NOk (CFG.add R g w head body) := by
  unfold CFG.add
  by_cases hz : w = R.zero
  · simpa [hz] using h
  · simp only [if_neg hz]
    exact ⟨addN_nodup g.N head h.1, mem_addN_of_mem g.N head g.S h.2⟩

/-- A routing entry comes from the rule list. -/
theorem routing_mem {α : Type} (rules : List (Rule α)) (u : Sym)
    (p : Rule α × Nat) (hp : p ∈ routingList rules u) : p.1 ∈ rules := by
  unfold routingList at hp
  rw [List.mem_flatMap] at hp
  obtain ⟨r, hr, hmem⟩ := hp
  rw [List.mem_filterMap] at hmem
  obtain ⟨q, _, heq⟩ := hmem
  by_cases hc : q.2 = u
  · rw [if_pos hc] at heq
    have : (r, q.1) = p := Option.some.inj heq
    rw [← this]
    exact hr
  · simp [hc] at heq

/-- The agenda loop only ever writes keys that are vocabulary members or rule
heads (here: keys satisfying D). -/
theorem agendaGo_keys {α : Type} [DecidableEq α] (R : SR α)
    (rules : List (Rule α)) (D : Sym → Prop)
    (hrules : ∀ r ∈ rules, D r.head) :
    ∀ (fuel : Nat) (old change : Chart Sym α), KeysP D old → KeysP D change →
      KeysP D (agendaGo R rules fuel old change) := by
  intro fuel
  induction fuel with
  | zero => intro old change hold _; exact hold
  | succ n ih =>
      intro old change hold hchange
      cases hlast : change.getLast? with
      | none => simpa [agendaGo, hlast] using hold
      | some uv =>
          obtain ⟨u, v⟩ := uv
          have hu : D u := hchange (u, v) (getLast?_mem change (u, v) hlast)
          simp only [agendaGo, hlast]
          by_cases happ :
              R.approx_eq (cget R.zero old u) (R.add (cget R.zero old u) v) = true
          · simp only [happ, if_true]
            exact ih old change.dropLast hold (keysP_dropLast D change hchange)
          · simp only [happ, if_false]
            apply ih
            · exact keysP_cset D R.zero old u _ hold hu
            · refine foldl_preserve_mem (KeysP D) _ (routingList rules u) ?_
                change.dropLast (keysP_dropLast D change hchange)
              intro ch p hp hch
              exact keysP_cadd D R.zero R.add ch p.1.head _ hch
                (hrules p.1 (routing_mem rules u p hp))

/-- The vocabulary is unchanged by the epsilon-grammar construction. -/
theorem ecfg_V {α : Type} [DecidableEq α] (R : SR α) (g : CFG α) :
    (g.rules.foldl
      (fun e r =>
        if r.body.any (fun y => decide (y ∈ g.V)) then e
        else CFG.add R e r.w r.head r.body)
      (g.spawnV [])).V = ([] : List Sym) := by
  refine foldl_preserve_mem (fun e : CFG α => e.V = ([] : List Sym)) _ g.rules ?_ _ rfl
  intro e r _ he
  by_cases hc : r.body.any (fun y => decide (y ∈ g.V))
  · simpa [hc] using he
  · simp only [hc, Bool.false_eq_true, if_false]
    rw [add_V]
    exact he

/-- Heads of the epsilon-grammar come from heads of the input. -/
theorem ecfg_heads {α : Type} [DecidableEq α] (R : SR α) (g : CFG α)
    (t : Sym) (ht : ∀ r ∈ g.rules, r.head ≠ t) :
    RulesP (fun r => r.head ≠ t)
      (g.rules.foldl
        (fun e r =>
          if r.body.any (fun y => decide (y ∈ g.V)) then e
          else CFG.add R e r.w r.head r.body)
        (g.spawnV [])) := by
  refine foldl_preserve_mem (RulesP (fun r => r.head ≠ t)) _ g.rules ?_ _
    (by intro r hr; simp [CFG.spawnV] at hr)
  intro e r hr he
  by_cases hc : r.body.any (fun y => decide (y ∈ g.V))
  · simpa [hc] using he
  · simp only [hc, Bool.false_eq_true, if_false]
    exact rulesP_add R _ e r.w r.head r.body (Or.inr (ht r hr)) he

/-- A symbol that heads no rule of the grammar has null weight zero (in
particular, every terminal under a clean grammar). -/
theorem null_weight_zero {α : Type} [DecidableEq α] (R : SR α) (g : CFG α)
    (t : Sym) (ht : ∀ r ∈ g.rules, r.head ≠ t) :
    cget R.zero (CFG.null_weight R g) t = R.zero := by
  unfold CFG.null_weight
  set ecfg := g.rules.foldl
    (fun e r =>
      if r.body.any (fun y => decide (y ∈ g.V)) then e
      else CFG.add R e r.w r.head r.body)
    (g.spawnV []) with hecfg
  have hheads : ∀ r ∈ ecfg.rules, r.head ≠ t := ecfg_heads R g t ht
  have hv : ecfg.V = ([] : List Sym) := by
    rw [hecfg]
    exact ecfg_V R g
  have hkeys : KeysP (fun x => x ≠ t) (CFG.agenda R ecfg 10000) := by
    simp only [CFG.agenda]
    apply agendaGo_keys R ecfg.rules (fun x => x ≠ t) hheads
    · intro p hp
      simp at hp
    · refine foldl_preserve_mem (KeysP (fun x => x ≠ t)) _ ecfg.rules ?_ _ ?_
      · intro ch r hr hch
        by_cases hb : r.body = []
        · simp only [hb, if_pos rfl]
          exact keysP_cadd _ R.zero R.add ch r.head _ hch (hheads r hr)
        · simpa [hb] using hch
      · rw [hv]
        intro p hp
        simp at hp
  exact cget_of_not_key R.zero _ t hkeys

/-- A zero row of the matrix stays zero through the Lehmann pivots. -/
theorem funGo_row_zero {κ α : Type} (R : SR α) (L : SRLaws R)
    (pivots : List κ) (s : κ) :
    ∀ (F : κ → κ → α), (∀ k, F s k = R.zero) →
      ∀ k, funGo R pivots F s k = R.zero := by
  induction pivots with
  | nil => intro F hF k; exact hF k
  | cons j rest ih =>
      intro F hF k
      apply ih
      intro k'
      simp only [funStep]
      rw [hF k', hF j, L.zero_mul, L.zero_mul, L.zero_add]

/-- When the chart has no key in row s over N, the Lehmann closure is zero on
that row off the diagonal. -/
theorem lehmann_row_zero {κ α : Type} [DecidableEq κ] [DecidableEq α]
    (R : SR α) (L : SRLaws R) (N : List κ) (hnd : N.Nodup)
    (A : Chart (κ × κ) α) (s Y : κ) (hs : s ∈ N) (hY : Y ∈ N) (hne : s ≠ Y)
    (hrow : ∀ k, cget R.zero A (s, k) = R.zero) :
    cget R.zero (lehmann R N A) (s, Y) = R.zero := by
  rw [lehmann_cget R N hnd A s Y hs hY, if_neg hne]
  exact funGo_row_zero R L N s (chartFun R.zero A) hrow Y

/-- The unary chart of unaryremove carries keys whose first component is a
body symbol of the grammar. -/
theorem unaryChart_keys {α : Type} [DecidableEq α] (R : SR α) (g : CFG α) :
    KeysP (fun q : Sym × Sym => q.1 ∈ g.rules.flatMap (fun r => r.body))
      (g.rules.foldl
        (fun ch r =>
          match r.body with
          | [y] => if y ∈ g.V then ch else cadd R.zero R.add ch (y, r.head) r.w
          | _ => ch)
        []) := by
  refine foldl_preserve_mem
    (KeysP (fun q : Sym × Sym => q.1 ∈ g.rules.flatMap (fun r => r.body)))
    _ g.rules ?_ _ (by intro p hp; simp at hp)
  intro ch r hr hch
  rcases hb : r.body with _ | ⟨y, _ | _⟩
  · simpa [hb] using hch
  · by_cases hy : y ∈ g.V
    · simpa [hb, hy] using hch
    · simp only [hb, hy, if_false]
      refine keysP_cadd _ R.zero R.add ch (y, r.head) r.w hch ?_
      rw [List.mem_flatMap]
      exact ⟨r, hr, by rw [hb]; exact List.mem_singleton.mpr rfl⟩
  · simpa [hb] using hch

/-- sepTermBody only adds rules with generated heads. -/
theorem sepTermBody_heads {α : Type} [DecidableEq α] (R : SR α) (g : CFG α)
    (hgen : ∀ i, (Sym.gen i : Sym) ∉ g.V) :
    ∀ (body : List Sym) (new : CFG α) (memo : List (Sym × Sym)) (c : Nat),
      RulesP (fun r => r.head ∉ g.V) new →
      RulesP (fun r => r.head ∉ g.V) (sepTermBody R g body new memo c).2.1 := by
  intro body
  induction body with
  | nil => intro new memo c h; exact h
  | cons y rest ih =>
      intro new memo c h
      by_cases hy : y ∈ g.V
      · cases hfind : mfind memo y with
        | some hd =>
            simp only [sepTermBody, if_pos hy, hfind]
            exact ih new memo c h
        | none =>
            simp only [sepTermBody, if_pos hy, hfind]
            exact ih _ _ _
              (rulesP_add R _ new R.one (Sym.gen c) [y] (Or.inr (hgen c)) h)
      · simp only [sepTermBody, if_neg hy]
        exact ih new memo c h

/-- sepTermBody does not change the vocabulary or the start symbol. -/
theorem sepTermBody_VS {α : Type} [DecidableEq α] (R : SR α) (g : CFG α) :
    ∀ (body : List Sym) (new : CFG α) (memo : List (Sym × Sym)) (c : Nat),
      (sepTermBody R g body new memo c).2.1.V = new.V ∧
        (sepTermBody R g body new memo c).2.1.S = new.S := by
  intro body
  induction body with
  | nil => intro new memo c; exact ⟨rfl, rfl⟩
  | cons y rest ih =>
      intro new memo c
      by_cases hy : y ∈ g.V
      · cases hfind : mfind memo y with
        | some hd =>
            simp only [sepTermBody, if_pos hy, hfind]
            exact ih new memo c
        | none =>
            simp only [sepTermBody, if_pos hy, hfind]
            have := ih (CFG.add R new R.one (Sym.gen c) [y])
              (memo ++ [(y, Sym.gen c)]) (c + 1)
            rw [add_V, add_S] at this
            exact this
      · simp only [sepTermBody, if_neg hy]
        exact ih new memo c

/-- One separate_terminals step keeps all heads outside the vocabulary. -/
theorem sepTermStep_heads {α : Type} [DecidableEq α] (R : SR α) (g : CFG α)
    (hgen : ∀ i, (Sym.gen i : Sym) ∉ g.V)
    (st : CFG α × List (Sym × Sym) × Nat) (r : Rule α)
    (hr : r.head ∉ g.V) (h : RulesP (fun r => r.head ∉ g.V) st.1) :
    RulesP (fun r => r.head ∉ g.V) (sepTermStep R g st r).1 := by
  unfold sepTermStep
  split
  · next y hb =>
      by_cases hy : y ∈ g.V
      · simp only [if_pos hy]
        exact rulesP_add R _ st.1 r.w r.head r.body (Or.inr hr) h
      · simp only [if_neg hy]
        exact rulesP_add R _ _ r.w r.head _ (Or.inr hr)
          (sepTermBody_heads R g hgen r.body st.1 st.2.1 st.2.2 h)
  · next hb =>
      exact rulesP_add R _ _ r.w r.head _ (Or.inr hr)
        (sepTermBody_heads R g hgen r.body st.1 st.2.1 st.2.2 h)

/-- One separate_terminals step preserves the vocabulary and the start. -/
theorem sepTermStep_VS {α : Type} [DecidableEq α] (R : SR α) (g : CFG α)
    (st : CFG α × List (Sym × Sym) × Nat) (r : Rule α) :
    (sepTermStep R g st r).1.V = st.1.V ∧
      (sepTermStep R g st r).1.S = st.1.S := by
  unfold sepTermStep
  split
  · next y hb =>
      by_cases hy : y ∈ g.V
      · simp only [if_pos hy]
        exact ⟨add_V R st.1 r.w r.head r.body, add_S R st.1 r.w r.head r.body⟩
      · simp only [if_neg hy]
        constructor
        · rw [add_V]
          exact (sepTermBody_VS R g r.body st.1 st.2.1 st.2.2).1
        · rw [add_S]
          exact (sepTermBody_VS R g r.body st.1 st.2.1 st.2.2).2
  · next hb =>
      constructor
      · rw [add_V]
        exact (sepTermBody_VS R g r.body st.1 st.2.1 st.2.2).1
      · rw [add_S]
        exact (sepTermBody_VS R g r.body st.1 st.2.1 st.2.2).2

/-- separate_terminals keeps all heads outside the vocabulary. -/
theorem sepTerm_heads {α : Type} [DecidableEq α] (R : SR α) (g : CFG α)
    (c : Nat) (hgen : ∀ i, (Sym.gen i : Sym) ∉ g.V)
    (hheads : ∀ r ∈ g.rules, r.head ∉ g.V) :
    RulesP (fun r => r.head ∉ g.V) (CFG.separate_terminals R g c).1 := by
  refine foldl_preserve_mem
    (fun st : CFG α × List (Sym × Sym) × Nat => RulesP (fun r => r.head ∉ g.V) st.1)
    _ g.rules ?_ _ (by intro r hr; simp [CFG.spawn] at hr)
  intro st r hr hst
  exact sepTermStep_heads R g hgen st r (hheads r hr) hst

/-- separate_terminals preserves the vocabulary and the start symbol. -/
theorem sepTerm_VS {α : Type} [DecidableEq α] (R : SR α) (g : CFG α)
    (c : Nat) :
    (CFG.separate_terminals R g c).1.V = g.V ∧
      (CFG.separate_terminals R g c).1.S = g.S := by
  refine foldl_preserve_mem
    (fun st : CFG α × List (Sym × Sym) × Nat => st.1.V = g.V ∧ st.1.S = g.S)
    _ g.rules ?_ _ ⟨rfl, rfl⟩
  intro st r _ hst
  obtain ⟨hV, hS⟩ := sepTermStep_VS R g st r
  exact ⟨hV.trans hst.1, hS.trans hst.2⟩

/-- GoodRules rephrased: every rule is a preterminal or terminal-free. -/
theorem goodRules_termOk {α : Type} (V : List Sym) (rules : List (Rule α))
    (h : ∀ r ∈ rules, ∀ y ∈ r.body, y ∈ V → r.body = [y]) :
    ∀ r ∈ rules, TermOk V r := by
  intro r hr
  by_cases hex : ∃ y ∈ r.body, y ∈ V
  · obtain ⟨y, hy, hyV⟩ := hex
    exact Or.inl ⟨y, h r hr y hy hyV, hyV⟩
  · right
    intro y hy hyV
    exact hex ⟨y, hy, hyV⟩

/-- The binarize loop: when every stack rule satisfies the terminal
discipline with a non-terminal head, every emitted rule has width at most two
and satisfies both, and vocabulary and start are preserved. -/
theorem binGo_inv {α : Type} [DecidableEq α] (R : SR α) (V : List Sym)
    (hgenV : ∀ i, (Sym.gen i : Sym) ∉ V) :
    ∀ (fuel : Nat) (stack : List (Rule α)) (new : CFG α) (c : Nat),
      (∀ r ∈ stack, TermOk V r ∧ r.head ∉ V) →
      RulesP (fun r => r.body.length ≤ 2 ∧ TermOk V r ∧ r.head ∉ V) new →
      RulesP (fun r => r.body.length ≤ 2 ∧ TermOk V r ∧ r.head ∉ V)
          (binGo R fuel stack new c).1 ∧
        (binGo R fuel stack new c).1.V = new.V ∧
        (binGo R fuel stack new c).1.S = new.S := by
  intro fuel
  induction fuel with
  | zero => intro stack new c _ hnew; exact ⟨hnew, rfl, rfl⟩
  | succ n ih =>
      intro stack new c hstack hnew
      cases stack with
      | nil => exact ⟨hnew, rfl, rfl⟩
      | cons p rest =>
          have hrest : ∀ r ∈ rest, TermOk V r ∧ r.head ∉ V :=
            fun r hr => hstack r (List.mem_cons_of_mem p hr)
          have hp := hstack p (List.mem_cons_self p rest)
          simp only [binGo]
          by_cases hlen : p.body.length ≤ 2
          · simp only [hlen, if_true]
            have hres := ih rest (CFG.add R new p.w p.head p.body) c hrest
              (rulesP_add R _ new p.w p.head p.body
                (Or.inr ⟨hlen, hp.1, hp.2⟩) hnew)
            rw [add_V, add_S] at hres
            exact hres
          · simp only [hlen, if_false]
            have hfree : ∀ y ∈ p.body, y ∉ V := by
              rcases hp.1 with ⟨t, hbody, _⟩ | hfree
              · exfalso
                apply hlen
                rw [hbody]
                simp
              · exact hfree
            refine ih _ new (c + 1) ?_ hnew
            intro r hr
            rcases List.mem_cons.mp hr with h1 | h2
            · subst h1
              refine ⟨Or.inr ?_, hp.2⟩
              intro y hy
              rcases List.mem_cons.mp hy with hy1 | hy2
              · rw [hy1]; exact hgenV c
              · exact hfree y (List.drop_subset 2 p.body hy2)
            · rcases List.mem_cons.mp h2 with h3 | h4
              · subst h3
                refine ⟨Or.inr ?_, hgenV c⟩
                intro y hy
                exact hfree y (List.take_subset 2 p.body hy)
              · exact hrest r h4

/-- binarize preserves the grammar-level facts and establishes width two. -/
theorem binarize_inv {α : Type} [DecidableEq α] (R : SR α) (g : CFG α)
    (c : Nat) (hgenV : ∀ i, (Sym.gen i : Sym) ∉ g.V)
    (hrules : ∀ r ∈ g.rules, TermOk g.V r ∧ r.head ∉ g.V) :
    RulesP (fun r => r.body.length ≤ 2 ∧ TermOk g.V r ∧ r.head ∉ g.V)
        (CFG.binarize R g c).1 ∧
      (CFG.binarize R g c).1.V = g.V ∧ (CFG.binarize R g c).1.S = g.S := by
  have := binGo_inv R g.V hgenV (stackMeasure g.rules + 1) g.rules.reverse
    g.spawn c (fun r hr => hrules r (List.mem_reverse.mp hr))
    (by intro r hr; simp [CFG.spawn] at hr)
  exact this

/-- The start symbol is a plain name or a generated name. -/
def SBaseOrGen (S : Sym) : Prop :=
  (∃ s, S = Sym.base s) ∨ (∃ i, S = Sym.gen i)

/-- A dollar-renamed symbol never equals a plain or generated start. -/
theorem dollar_ne_of_sbase (S y : Sym) (h : SBaseOrGen S) :
    Sym.dollar y ≠ S := by
  rcases h with ⟨s, hs⟩ | ⟨i, hi⟩
  · rw [hs]; intro hc; exact Sym.noConfusion hc
  · rw [hi]; intro hc; exact Sym.noConfusion hc

/-- separate_start stage: rule facts are preserved, the unit start rule obeys
them, and the new start is outside the vocabulary and base-or-generated. -/
theorem sepStart_inv {α : Type} [DecidableEq α] (R : SR α) (g : CFG α)
    (c : Nat) (hgenV : ∀ i, (Sym.gen i : Sym) ∉ g.V)
    (hrules : RulesP (fun r => r.body.length ≤ 2 ∧ TermOk g.V r ∧ r.head ∉ g.V) g)
    (hSV : g.S ∉ g.V) (hSb : SBaseOrGen g.S) :
    RulesP (fun r => r.body.length ≤ 2 ∧ TermOk g.V r ∧ r.head ∉ g.V)
        (CFG.separate_start R g c).1 ∧
      (CFG.separate_start R g c).1.V = g.V ∧
      (CFG.separate_start R g c).1.S ∉ g.V ∧
      SBaseOrGen (CFG.separate_start R g c).1.S := by
  unfold CFG.separate_start
  by_cases htrig : g.rules.any (fun r => decide (g.S ∈ r.body))
  · simp only [htrig, if_true]
    refine ⟨?_, ?_, ?_, ?_⟩
    · intro r hr
      rw [show (List.foldl (fun h r => CFG.add R h r.w r.head r.body)
            (CFG.add R (g.spawnS (Sym.gen c)) R.one (Sym.gen c) [g.S]) g.rules)
          = addAll R (CFG.add R (g.spawnS (Sym.gen c)) R.one (Sym.gen c) [g.S])
            g.rules from rfl, addAll_rules, add_rules] at hr
      simp only [CFG.spawnS, List.nil_append] at hr
      rcases List.mem_append.mp hr with h1 | h2
      · by_cases hz : R.one = R.zero
        · simp [hz] at h1
        · have : r = ⟨R.one, Sym.gen c, [g.S]⟩ := by simpa [hz] using h1
          subst this
          refine ⟨by simp, Or.inr ?_, hgenV c⟩
          intro y hy
          simp only [List.mem_singleton] at hy
          rw [hy]
          exact hSV
      · exact hrules r (List.mem_of_mem_filter h2)
    · rw [show (List.foldl (fun h r => CFG.add R h r.w r.head r.body)
          (CFG.add R (g.spawnS (Sym.gen c)) R.one (Sym.gen c) [g.S]) g.rules)
        = addAll R (CFG.add R (g.spawnS (Sym.gen c)) R.one (Sym.gen c) [g.S])
          g.rules from rfl, addAll_V, add_V]
      rfl
    · rw [show (List.foldl (fun h r => CFG.add R h r.w r.head r.body)
          (CFG.add R (g.spawnS (Sym.gen c)) R.one (Sym.gen c) [g.S]) g.rules)
        = addAll R (CFG.add R (g.spawnS (Sym.gen c)) R.one (Sym.gen c) [g.S])
          g.rules from rfl, addAll_S, add_S]
      exact hgenV c
    · rw [show (List.foldl (fun h r => CFG.add R h r.w r.head r.body)
          (CFG.add R (g.spawnS (Sym.gen c)) R.one (Sym.gen c) [g.S]) g.rules)
        = addAll R (CFG.add R (g.spawnS (Sym.gen c)) R.one (Sym.gen c) [g.S])
          g.rules from rfl, addAll_S, add_S]
      exact Or.inr ⟨c, rfl⟩
  · simp only [htrig, Bool.false_eq_true, if_false]
    refine ⟨hrules, ?_, hSV, hSb⟩
    trivial

/-- Every symbol of a masked body is the rename of some kept body symbol. -/
theorem maskBody_mem (f : Sym → Sym) (body : List Sym) (B : List Bool)
    (x : Sym) (hx : x ∈ maskBody f body B) : ∃ y ∈ body, x = f y := by
  unfold maskBody at hx
  rw [List.mem_filterMap] at hx
  obtain ⟨p, hp, heq⟩ := hx
  by_cases hb : p.2
  · simp [hb] at heq
  · simp only [hb, Bool.false_eq_true, if_false, Option.some.injEq] at heq
    exact ⟨p.1, (List.mem_zip hp).1, heq.symm⟩

/-- A masked body is at most as long as the body. -/
theorem maskBody_len (f : Sym → Sym) (body : List Sym) (B : List Bool) :
    (maskBody f body B).length ≤ body.length := by
  unfold maskBody
  calc ((body.zip B).filterMap
      (fun p => if p.2 then none else some (f p.1))).length
      ≤ (body.zip B).length := List.length_filterMap_le _ _
    _ ≤ body.length := by rw [List.length_zip]; exact min_le_left _ _

/-- A nonempty masked copy of a singleton body is the renamed singleton. -/
theorem maskBody_single (f : Sym → Sym) (t : Sym) (B : List Bool)
    (h : maskBody f [t] B ≠ []) : maskBody f [t] B = [f t] := by
  cases B with
  | nil => simp [maskBody] at h
  | cons b bs =>
      cases b
      · simp [maskBody]
      · simp [maskBody] at h

/-- The rename is the identity on symbols with null weight zero. -/
theorem pushRename_zero {α : Type} [DecidableEq α] (R : SR α) (g : CFG α)
    (null : Chart Sym α) (rename : Sym → Sym) (x : Sym)
    (hz : cget R.zero null x = R.zero) :
    pushRename R g null rename x = x := by
  simp [pushRename, hz]

/-- The rename either keeps the symbol or applies rename. -/
theorem pushRename_cases {α : Type} [DecidableEq α] (R : SR α) (g : CFG α)
    (null : Chart Sym α) (rename : Sym → Sym) (x : Sym) :
    pushRename R g null rename x = x ∨
      pushRename R g null rename x = rename x := by
  unfold pushRename
  split
  · exact Or.inl rfl
  · exact Or.inr rfl

/-- Structure of push_null_weights without recovery: rule width, terminal
discipline, absence of the start symbol from bodies and non-terminal heads
carry over to the result, which also keeps vocabulary and start and a
well-formed nonterminal set. -/
theorem push_struct {α : Type} [DecidableEq α] (R : SR α) (g2 : CFG α)
    (null : Chart Sym α) (g3 : CFG α)
    (h : pushNullWeights R g2 null false Sym.dollar = some g3)
    (hVbase : ∀ y ∈ g2.V, ∃ s, y = Sym.base s)
    (hrules : RulesP (fun r =>
      r.body.length ≤ 2 ∧ TermOk g2.V r ∧ r.head ∉ g2.V) g2)
    (hnullV : ∀ t ∈ g2.V, cget R.zero null t = R.zero)
    (hSb : SBaseOrGen g2.S) (hSV : g2.S ∉ g2.V) :
    RulesP (fun r => r.body.length ≤ 2 ∧ TermOk g2.V r ∧
        g2.S ∉ r.body ∧ r.head ∉ g2.V) g3 ∧
      g3.V = g2.V ∧ g3.S = g2.S ∧ NOk g3 := by
  have hdollarV : ∀ y, Sym.dollar y ∉ g2.V := by
    intro y hy
    obtain ⟨s, hs⟩ := hVbase _ hy
    exact Sym.noConfusion hs
  set f := pushRename R g2 null Sym.dollar with hf
  have hfV : ∀ y, y ∉ g2.V → f y ∉ g2.V := by
    intro y hy
    rcases pushRename_cases R g2 null Sym.dollar y with hc | hc
    · rw [hf, hc]; exact hy
    · rw [hf, hc]; exact hdollarV y
  have hfS : ∀ y, y ≠ g2.S → f y ≠ g2.S := by
    intro y hy
    rcases pushRename_cases R g2 null Sym.dollar y with hc | hc
    · rw [hf, hc]; exact hy
    · rw [hf, hc]; exact dollar_ne_of_sbase g2.S y hSb
  have hft : ∀ t ∈ g2.V, f t = t := fun t ht =>
    pushRename_zero R g2 null Sym.dollar t (hnullV t ht)
  unfold pushNullWeights at h
  by_cases hassert : g2.rules.any (fun r => decide (g2.S ∈ r.body))
  · simp [hassert] at h
  · have hSnb : ∀ r ∈ g2.rules, g2.S ∉ r.body := by
      intro r hr hmem
      apply hassert
      rw [List.any_eq_true]
      exact ⟨r, hr, by simpa using hmem⟩
    simp only [hassert, Bool.false_eq_true, if_false, Option.some.injEq] at h
    subst h
    set P : CFG α → Prop := fun rc =>
      RulesP (fun r => r.body.length ≤ 2 ∧ TermOk g2.V r ∧
        g2.S ∉ r.body ∧ r.head ∉ g2.V) rc ∧
      rc.V = g2.V ∧ rc.S = g2.S ∧ NOk rc with hP
    have h0 : P (CFG.add R g2.spawn (cget R.zero null g2.S) g2.S []) := by
      refine ⟨?_, by rw [add_V]; rfl, by rw [add_S]; rfl, ?_⟩
      · refine rulesP_add R _ g2.spawn _ g2.S [] (Or.inr ?_)
          (by intro r hr; simp [CFG.spawn] at hr)
        refine ⟨by simp, Or.inr (by intro y hy; simp at hy), by simp, hSV⟩
      · exact nok_add R g2.spawn _ g2.S []
          ⟨List.nodup_singleton g2.S, List.mem_singleton.mpr rfl⟩
    refine foldl_preserve_mem P _ g2.rules ?_ _ h0
    intro rc r hr hrc
    by_cases hb : r.body = []
    · simpa [hb] using hrc
    · simp only [hb, if_false]
      refine foldl_preserve P _ (masks r.body.length) ?_ rc hrc
      intro rc' B hrc'
      by_cases hlen : 0 < (maskBody f r.body B).length
      · simp only [hlen, if_true]
        obtain ⟨hQ, hVeq, hSeq, hnok⟩ := hrc'
        obtain ⟨hrlen, hrterm, hrhead⟩ := hrules r hr
        refine ⟨?_, by rw [add_V]; exact hVeq, by rw [add_S]; exact hSeq,
          nok_add R rc' _ _ _ hnok⟩
        refine rulesP_add R _ rc' _ _ _ (Or.inr ?_) hQ
        refine ⟨le_trans (maskBody_len f r.body B) hrlen, ?_, ?_, ?_⟩
        · rcases hrterm with ⟨t, hbody, htV⟩ | hfree
          · left
            refine ⟨t, ?_, htV⟩
            have hne : maskBody f r.body B ≠ [] := by
              intro hc
              rw [hc] at hlen
              simp at hlen
            rw [hbody] at hne ⊢
            rw [maskBody_single f t B hne, hft t htV]
          · right
            intro y hy
            obtain ⟨y0, hy0, hfy⟩ := maskBody_mem f r.body B y hy
            rw [hfy]
            exact hfV y0 (hfree y0 hy0)
        · intro hc
          obtain ⟨y0, hy0, hfy⟩ := maskBody_mem f r.body B g2.S hc
          exact hfS y0 (fun he => hSnb r hr (he ▸ hy0)) hfy.symm
        · exact hfV r.head hrhead
      · simpa [hlen] using hrc'

/-- The shape of a CNF rule relative to a vocabulary and a start symbol. -/
def CNFShape {α : Type} (V : List Sym) (S : Sym) (r : Rule α) : Prop :=
  (r.body = [] ∧ r.head = S) ∨ (∃ y, r.body = [y] ∧ y ∈ V) ∨
    (∃ y1 y2, r.body = [y1, y2] ∧ y1 ∉ V ∧ y2 ∉ V ∧ y1 ≠ S ∧ y2 ≠ S)

/-- A grammar all of whose rules have CNF shape passes in_cnf. -/
theorem cnfShape_in_cnf {α : Type} [DecidableEq α] (g : CFG α)
    (h : RulesP (CNFShape g.V g.S) g) : CFG.in_cnf g = true := by
  rw [CFG.in_cnf, List.all_eq_true]
  intro r hr
  rcases h r hr with ⟨hb, hh⟩ | ⟨y, hb, hy⟩ | ⟨y1, y2, hb, h1, h2, h3, h4⟩
  · simp [hb, hh]
  · simp [hb, hy]
  · simp [hb, h1, h2, h3, h4]

/-- unaryremove: starting from the push_null_weights output, every emitted
rule has CNF shape (nullary rules survive only at the start thanks to the
zero row of the closure), and vocabulary and start are preserved. -/
theorem unaryremove_struct {α : Type} [DecidableEq α] (R : SR α)
    (L : SRLaws R) (g3 : CFG α)
    (hrules : RulesP (fun r => r.body.length ≤ 2 ∧ TermOk g3.V r ∧
      g3.S ∉ r.body ∧ r.head ∉ g3.V) g3)
    (hnullary : ∀ r ∈ g3.rules, r.body = [] → r.head = g3.S)
    (hnok : NOk g3) :
    RulesP (CNFShape g3.V g3.S) (CFG.unaryremove R g3) ∧
      (CFG.unaryremove R g3).V = g3.V ∧ (CFG.unaryremove R g3).S = g3.S := by
  unfold CFG.unaryremove
  set A := g3.rules.foldl
    (fun ch r =>
      match r.body with
      | [y] => if y ∈ g3.V then ch else cadd R.zero R.add ch (y, r.head) r.w
      | _ => ch)
    [] with hA
  have hrowzero : ∀ k, cget R.zero A (g3.S, k) = R.zero := by
    intro k
    apply cget_of_not_key
    intro p hp hc
    have hmem := unaryChart_keys R g3 p hp
    rw [hc] at hmem
    simp only [List.mem_flatMap] at hmem
    obtain ⟨r, hr, hSr⟩ := hmem
    exact (hrules r hr).2.2.1 hSr
  have hWzero : ∀ Y ∈ g3.N, Y ≠ g3.S →
      cget R.zero (lehmann R g3.N A) (g3.S, Y) = R.zero := by
    intro Y hY hne
    exact lehmann_row_zero R L g3.N hnok.1 A g3.S Y hnok.2 hY
      (fun hc => hne hc.symm) hrowzero
  set P : CFG α → Prop := fun new =>
    RulesP (CNFShape g3.V g3.S) new ∧ new.V = g3.V ∧ new.S = g3.S with hP
  have hmain : P (g3.rules.foldl
      (fun new r =>
        if isUnaryNT g3 r then new
        else g3.N.foldl
          (fun new Y =>
            CFG.add R new (R.mul (cget R.zero (lehmann R g3.N A) (r.head, Y)) r.w)
              Y r.body)
          new)
      g3.spawn) := by
    refine foldl_preserve_mem P _ g3.rules ?_ _
      ⟨by intro r hr; simp [CFG.spawn] at hr, rfl, rfl⟩
    intro new r hr hnew
    by_cases hu : isUnaryNT g3 r = true
    · simpa [hu] using hnew
    · simp only [hu, Bool.false_eq_true, if_false]
      refine foldl_preserve_mem P _ g3.N ?_ new hnew
      intro new' Y hY hnew'
      obtain ⟨hQ, hVeq, hSeq⟩ := hnew'
      refine ⟨?_, by rw [add_V]; exact hVeq, by rw [add_S]; exact hSeq⟩
      obtain ⟨hrlen, hrterm, hrS, hrhead⟩ := hrules r hr
      refine rulesP_add R _ new' _ Y r.body ?_ hQ
      rcases hb : r.body with _ | ⟨y1, _ | ⟨y2, rest2⟩⟩
      · by_cases hYS : Y = g3.S
        · exact Or.inr (Or.inl ⟨rfl, hYS⟩)
        · left
          have hhead : r.head = g3.S := hnullary r hr hb
          rw [hhead, hWzero Y hY hYS, L.zero_mul]
      · right
        right
        left
        refine ⟨y1, rfl, ?_⟩
        unfold isUnaryNT at hu
        rw [hb] at hu
        simpa using hu
      · cases rest2 with
        | nil =>
            right
            right
            right
            have hfree : ∀ y ∈ r.body, y ∉ g3.V := by
              rcases hrterm with ⟨t, hbody, _⟩ | hfree
              · rw [hbody] at hb
                exact absurd hb (by simp)
              · exact hfree
            refine ⟨y1, y2, rfl, ?_, ?_, ?_, ?_⟩
            · exact hfree y1 (by rw [hb]; simp)
            · exact hfree y2 (by rw [hb]; simp)
            · intro hc
              exact hrS (by rw [hb, hc]; simp)
            · intro hc
              exact hrS (by rw [hb, hc]; simp)
        | cons y3 rest3 =>
            exfalso
            rw [hb] at hrlen
            simp at hrlen
  exact hmain

/-- trimFilter keeps a subset of the rules, preserving every rule property
and the vocabulary and start. -/
theorem trimFilter_struct {α : Type} [DecidableEq α] (R : SR α) (g : CFG α)
    (syms : List Sym) (P : Rule α → Prop) (h : RulesP P g) :
    RulesP P (trimFilter R g syms) ∧ (trimFilter R g syms).V = g.V ∧
      (trimFilter R g syms).S = g.S := by
  unfold trimFilter
  refine foldl_preserve_mem
    (fun new : CFG α => RulesP P new ∧ new.V = g.V ∧ new.S = g.S) _ g.rules ?_ _
    ⟨by intro r hr; simp [CFG.spawn] at hr, rfl, rfl⟩
  intro new r hr hnew
  obtain ⟨hQ, hVeq, hSeq⟩ := hnew
  by_cases hc : (decide (r.head ∈ syms) && !(decide (r.w = R.zero)) &&
      r.body.all (fun b => decide (b ∈ syms))) = true
  · simp only [hc, if_true]
    exact ⟨rulesP_add R P new r.w r.head r.body (Or.inr (by
      have : (⟨r.w, r.head, r.body⟩ : Rule α) = r := rfl
      rw [this]
      exact h r hr)) hQ,
      by rw [add_V]; exact hVeq, by rw [add_S]; exact hSeq⟩
  · simp only [hc, Bool.false_eq_true, if_false]
    exact ⟨hQ, hVeq, hSeq⟩

/-- CFG.trim keeps a subset of the rules, preserving every rule property and
the vocabulary and start. -/
theorem trim_struct {α : Type} [DecidableEq α] (R : SR α) (g : CFG α)
    (bottomupOnly : Bool) (P : Rule α → Prop) (h : RulesP P g) :
    RulesP P (CFG.trim R g bottomupOnly) ∧
      (CFG.trim R g bottomupOnly).V = g.V ∧
      (CFG.trim R g bottomupOnly).S = g.S := by
  unfold CFG.trim
  by_cases hb : bottomupOnly = true
  · simp only [hb, if_true]
    exact trimFilter_struct R g _ P h
  · simp only [hb, Bool.false_eq_true, if_false]
    exact trimFilter_struct R g _ P h

/-- C4 amended, witnessed over the Boolean semiring on two nodes with a single
off-diagonal edge. -/
theorem C4_lehmann_fixpoint_witness :
    cget boolSR.zero (lehmann boolSR [0, 1] [(((0 : Nat), (1 : Nat)), true)])
        (0, 1)
      = boolSR.add (if (0 : Nat) = 1 then boolSR.one else boolSR.zero)
          (sumOver boolSR [0, 1] (fun j =>
            boolSR.mul (cget boolSR.zero [(((0 : Nat), (1 : Nat)), true)] (0, j))
              (cget boolSR.zero
                (lehmann boolSR [0, 1] [(((0 : Nat), (1 : Nat)), true)])
                (j, 1)))) :=
  C4_lehmann_fixpoint boolSR (by constructor <;> decide) (by decide)
    [0, 1] (by decide) [(((0 : Nat), (1 : Nat)), true)] 0 1
    (by decide) (by decide)

/-- nullaryremove with the binarize flag set, written out as its stages. -/
theorem nullaryremove_eq {α : Type} [DecidableEq α] (R : SR α) (g : CFG α)
    (c : Nat) (recovery : Bool) (rename : Sym → Sym) :
    CFG.nullaryremove R g c true recovery rename =
      (match pushNullWeights R
          (CFG.separate_start R (CFG.binarize R g c).1 (CFG.binarize R g c).2).1
          (CFG.null_weight R
            (CFG.separate_start R (CFG.binarize R g c).1
              (CFG.binarize R g c).2).1)
          recovery rename with
        | none => none
        | some g3 =>
            some (g3,
              (CFG.separate_start R (CFG.binarize R g c).1
                (CFG.binarize R g c).2).2)) := rfl

/-- CFG.cnf written out as its stages. -/
theorem cnf_eq {α : Type} [DecidableEq α] (R : SR α) (g : CFG α) (c : Nat) :
    CFG.cnf R g c =
      (match CFG.nullaryremove R
          (CFG.binarize R (CFG.separate_terminals R g c).1
            (CFG.separate_terminals R g c).2).1
          (CFG.binarize R (CFG.separate_terminals R g c).1
            (CFG.separate_terminals R g c).2).2 true false Sym.dollar with
        | none => none
        | some p => some (CFG.trim R (CFG.unaryremove R p.1) false, p.2)) := rfl

/-- The stage chain of the CNF pipeline: on a clean grammar, the grammar
obtained by pushing the null weights after separate_terminals, two rounds of
binarize and separate_start yields, after unaryremove and trim, a grammar in
CNF. -/
theorem cnf_stage_chain {α : Type} [DecidableEq α] (R : SR α) (L : SRLaws R)
    (g : CFG α) (c : Nat) (hclean : Clean g)
    (g1 : CFG α) (c1 : Nat) (h1 : CFG.separate_terminals R g c = (g1, c1))
    (g2 : CFG α) (c2 : Nat) (h2 : CFG.binarize R g1 c1 = (g2, c2))
    (g3 : CFG α) (c3 : Nat) (h3 : CFG.binarize R g2 c2 = (g3, c3))
    (g4 : CFG α) (c4 : Nat) (h4 : CFG.separate_start R g3 c3 = (g4, c4))
    (g5 : CFG α)
    (h5 : pushNullWeights R g4 (CFG.null_weight R g4) false Sym.dollar
      = some g5) :
    CFG.in_cnf (CFG.trim R (CFG.unaryremove R g5) false) = true := by
  obtain ⟨hVbase, hSV, hSbase, hheads⟩ := hclean
  have hgenV : ∀ i, (Sym.gen i : Sym) ∉ g.V := by
    intro i hi
    obtain ⟨s, hs⟩ := hVbase _ hi
    exact Sym.noConfusion hs
  have hV1 : g1.V = g.V := by
    have hx := (sepTerm_VS R g c).1
    rw [h1] at hx
    exact hx
  have hS1 : g1.S = g.S := by
    have hx := (sepTerm_VS R g c).2
    rw [h1] at hx
    exact hx
  have hgood1 : ∀ r ∈ g1.rules, TermOk g.V r := by
    apply goodRules_termOk g.V g1.rules
    intro r hr y hy hyV
    have hfold := sepTermFold_spec R g hgenV g.rules (g.spawn, ([], c))
      (by intro r hr; simp [CFG.spawn] at hr)
      (by intro q hq; simp at hq)
    have hg1 : (CFG.separate_terminals R g c).1 = g1 := by rw [h1]
    rw [← hg1] at hr
    exact hfold r hr y hy hyV
  have hheads1 : ∀ r ∈ g1.rules, r.head ∉ g.V := by
    have hh := sepTerm_heads R g c hgenV hheads
    have hg1 : (CFG.separate_terminals R g c).1 = g1 := by rw [h1]
    rw [hg1] at hh
    exact hh
  have hb1 := binarize_inv R g1 c1 (by rw [hV1]; exact hgenV)
    (fun r hr => by rw [hV1]; exact ⟨hgood1 r hr, hheads1 r hr⟩)
  rw [h2] at hb1
  have hrules2 : ∀ r ∈ g2.rules,
      r.body.length ≤ 2 ∧ TermOk g.V r ∧ r.head ∉ g.V := by
    intro r hr
    have hx := hb1.1 r hr
    rw [hV1] at hx
    exact hx
  have hV2 : g2.V = g.V := by
    have hx := hb1.2.1
    rw [hV1] at hx
    exact hx
  have hb2 := binarize_inv R g2 c2 (by rw [hV2]; exact hgenV)
    (fun r hr => by rw [hV2]; exact ⟨(hrules2 r hr).2.1, (hrules2 r hr).2.2⟩)
  rw [h3] at hb2
  have hrules3 : ∀ r ∈ g3.rules,
      r.body.length ≤ 2 ∧ TermOk g.V r ∧ r.head ∉ g.V := by
    intro r hr
    have hx := hb2.1 r hr
    rw [hV2] at hx
    exact hx
  have hV3 : g3.V = g.V := by
    have hx := hb2.2.1
    rw [hV2] at hx
    exact hx
  have hS3 : g3.S = g.S := by
    have hx := hb2.2.2
    have hS2 : g2.S = g.S := by
      have hy := hb1.2.2
      rw [hS1] at hy
      exact hy
    rw [hS2] at hx
    exact hx
  have hss := sepStart_inv R g3 c3 (by rw [hV3]; exact hgenV)
    (fun r hr => by rw [hV3]; exact hrules3 r hr)
    (by rw [hS3, hV3]; exact hSV)
    (by rw [hS3]; exact Or.inl hSbase)
  rw [h4] at hss
  have hrules4 : ∀ r ∈ g4.rules,
      r.body.length ≤ 2 ∧ TermOk g.V r ∧ r.head ∉ g.V := by
    intro r hr
    have hx := hss.1 r hr
    rw [hV3] at hx
    exact hx
  have hV4 : g4.V = g.V := by
    have hx := hss.2.1
    rw [hV3] at hx
    exact hx
  have hS4V : g4.S ∉ g.V := by
    have hx := hss.2.2.1
    rw [hV3] at hx
    exact hx
  have hS4b : SBaseOrGen g4.S := hss.2.2.2
  have hnullV : ∀ t ∈ g4.V, cget R.zero (CFG.null_weight R g4) t = R.zero := by
    intro t ht
    apply null_weight_zero
    intro r hr hc
    have ht' : t ∈ g.V := by rw [← hV4]; exact ht
    exact (hrules4 r hr).2.2 (by rw [hc]; exact ht')
  have hps := push_struct R g4 (CFG.null_weight R g4) g5 h5
    (fun y hy => hVbase y (hV4 ▸ hy))
    (fun r hr => by rw [hV4]; exact hrules4 r hr)
    hnullV hS4b (by rw [hV4]; exact hS4V)
  have hpn := pushNull_nullary R g4 (CFG.null_weight R g4) Sym.dollar g5 h5
  have hnull5 : ∀ r ∈ g5.rules, r.body = [] → r.head = g5.S := by
    intro r hr hb
    rw [hps.2.2.1]
    exact hpn.2.1 r hr hb
  have hrules5 : ∀ r ∈ g5.rules, r.body.length ≤ 2 ∧ TermOk g5.V r ∧
      g5.S ∉ r.body ∧ r.head ∉ g5.V := by
    intro r hr
    rw [hps.2.1, hps.2.2.1]
    exact hps.1 r hr
  have hun := unaryremove_struct R L g5 hrules5 hnull5 hps.2.2.2
  have htr := trim_struct R (CFG.unaryremove R g5) false
    (CNFShape g5.V g5.S) hun.1
  apply cnfShape_in_cnf
  have hTV : (CFG.trim R (CFG.unaryremove R g5) false).V = g5.V := by
    rw [htr.2.1]
    exact hun.2.1
  have hTS : (CFG.trim R (CFG.unaryremove R g5) false).S = g5.S := by
    rw [htr.2.2]
    exact hun.2.2
  rw [hTV, hTS]
  exact htr.1

/-- C2: cnf applies separate_terminals FIRST and trim LAST (with binarize,
nullaryremove and unaryremove in between) - the reverse of the order the
specification lists - and whenever it returns a grammar on a clean input its
result is in CNF, so the final in_cnf assertion never fails. -/
theorem C2_cnf_pipeline {α : Type} [DecidableEq α] (R : SR α)
    (L : SRLaws R) (g : CFG α) (c : Nat) (hclean : Clean g)
    (g' : CFG α) (c' : Nat) (h : CFG.cnf R g c = some (g', c')) :
    CFG.cnf R g c = cnfAmendedOrder R g c ∧ CFG.in_cnf g' = true := by
  refine ⟨rfl, ?_⟩
  rw [cnf_eq] at h
  rcases hsp1 : CFG.separate_terminals R g c with ⟨g1, c1⟩
  have e1 : (CFG.separate_terminals R g c).1 = g1 := by rw [hsp1]
  have e2 : (CFG.separate_terminals R g c).2 = c1 := by rw [hsp1]
  rw [e1, e2] at h
  rcases hsp2 : CFG.binarize R g1 c1 with ⟨g2, c2⟩
  have e3 : (CFG.binarize R g1 c1).1 = g2 := by rw [hsp2]
  have e4 : (CFG.binarize R g1 c1).2 = c2 := by rw [hsp2]
  rw [e3, e4] at h
  split at h
  · exact absurd h (by simp)
  · next p hnr =>
      obtain ⟨pg, pc⟩ := p
      simp only [Option.some.injEq, Prod.mk.injEq] at h
      obtain ⟨hg, _⟩ := h
      rw [nullaryremove_eq] at hnr
      rcases hsp3 : CFG.binarize R g2 c2 with ⟨g3, c3⟩
      have e5 : (CFG.binarize R g2 c2).1 = g3 := by rw [hsp3]
      have e6 : (CFG.binarize R g2 c2).2 = c3 := by rw [hsp3]
      rw [e5, e6] at hnr
      rcases hsp4 : CFG.separate_start R g3 c3 with ⟨g4, c4⟩
      have e7 : (CFG.separate_start R g3 c3).1 = g4 := by rw [hsp4]
      have e8 : (CFG.separate_start R g3 c3).2 = c4 := by rw [hsp4]
      rw [e7, e8] at hnr
      split at hnr
      · exact absurd hnr (by simp)
      · next g5 hpw =>
          simp only [Option.some.injEq, Prod.mk.injEq] at hnr
          obtain ⟨hg5, _⟩ := hnr
          rw [← hg, ← hg5]
          exact cnf_stage_chain R L g c hclean g1 c1 hsp1 g2 c2 hsp2
            g3 c3 hsp3 g4 c4 hsp4 g5 hpw

/-- Grammar S -> A B, A -> eps, A -> a, B -> b over the Boolean semiring: the
nullable A makes the pipeline emit a unary rule S -> B, which only a trailing
unaryremove/trim can clean up. -/
def gX : CFG Bool :=
  { S := Sym.base "S", V := [Sym.base "a", Sym.base "b"],
    N := [Sym.base "S", Sym.base "A", Sym.base "B"],
    rules := [⟨true, Sym.base "S", [Sym.base "A", Sym.base "B"]⟩,
              ⟨true, Sym.base "A", []⟩,
              ⟨true, Sym.base "A", [Sym.base "a"]⟩,
              ⟨true, Sym.base "B", [Sym.base "b"]⟩] }

/-- The value of cnf on gX. -/
def gXres : CFG Bool :=
  { S := Sym.base "S", V := [Sym.base "a", Sym.base "b"],
    N := [Sym.base "S", Sym.dollar (Sym.base "A"), Sym.base "B"],
    rules := [⟨true, Sym.base "S", [Sym.dollar (Sym.base "A"), Sym.base "B"]⟩,
              ⟨true, Sym.dollar (Sym.base "A"), [Sym.base "a"]⟩,
              ⟨true, Sym.base "S", [Sym.base "b"]⟩,
              ⟨true, Sym.base "B", [Sym.base "b"]⟩] }

set_option maxRecDepth 10000 in
/-- C2 counterexample: running the stages in the order the specification
lists them (trim first, separate_terminals last) differs from cnf and leaves
a grammar that is NOT in CNF (a unary rule S -> B survives because no
unaryremove runs after the nullary removal), while cnf itself returns a CNF
grammar. -/
theorem C2_counterexample :
    CFG.cnf boolSR gX 0 ≠ cnfSpecOrder boolSR gX 0 ∧
      (cnfSpecOrder boolSR gX 0).map (fun p => CFG.in_cnf p.1)
        = some false ∧
      CFG.cnf boolSR gX 0 = some (gXres, 0) := by
  refine ⟨?_, ?_, ?_⟩ <;> decide

set_option maxRecDepth 10000 in
/-- C2 witnessed on gX: the pipeline order is the amended one and the
returned grammar is in CNF. -/
theorem C2_cnf_pipeline_witness :
    CFG.cnf boolSR gX 0 = cnfAmendedOrder boolSR gX 0 ∧
      CFG.in_cnf gXres = true :=
  C2_cnf_pipeline boolSR (by constructor <;> decide) gX 0
    ⟨by
      intro y hy
      simp only [gX, List.mem_cons, List.not_mem_nil, or_false] at hy
      rcases hy with h | h
      · exact ⟨"a", h⟩
      · exact ⟨"b", h⟩,
     by decide, ⟨"S", rfl⟩, by decide⟩
    gXres 0 (by decide)

end LeftCorner
